import Mathlib

/-!
# Verification of the DynamicAI chatbot conversational core

A shallow embedding, in Lean 4, of the conversational understanding and
orchestration pipeline of the DynamicAI chatbot:

* `sentiment_engine.py` — `SentimentAnalyser.analyse` (polarity/emotion
  reconciliation, subjectivity heuristic, empty-input default);
* `nlp_engine.py` — `IntentRecogniser.predict` / `predict_multi`,
  `NERExtractor.extract`, `ContextMemory`;
* `gemini_client.py` — `GeminiClient.respond` (retry loop, post-processing,
  canned fallback);
* `chatbot_core.py` — `ChatbotCore.process_message` and the emergency
  fallback.

Statistical components (the fitted TF-IDF / logistic-regression pipelines and
the regular-expression matcher of the standard library) are represented by
explicit oracle parameters: every concrete execution of the Python code
corresponds to one choice of oracle values, and all theorems quantify over
those choices.  Machine floats are modelled by exact rationals, with Python's
`round` (half-to-even) made explicit.  Rational constants are written with
`mkRat`, and scaling/multiplication on numerator and denominator, so that the
kernel can evaluate every definition on concrete inputs.
-/

namespace PyFloat

/-- Rounding of the fraction `n / d` (`d` a positive denominator) to the
nearest integer, halves to the even neighbour: CPython's `round` on exact
values.  `n.fdiv d` is the floor of the fraction and `n - n.fdiv d * d` its
remainder, so `2 * remainder < d` says the fractional part is below 1/2. -/
def pyRoundFrac (n : ℤ) (d : ℕ) : ℤ :=
  if 2 * (n - n.fdiv d * d) < (d : ℤ) then n.fdiv d
  else if (d : ℤ) < 2 * (n - n.fdiv d * d) then n.fdiv d + 1
  else if n.fdiv d % 2 = 0 then n.fdiv d else n.fdiv d + 1

/-- Python `round(x, 3)`: round `x * 1000` to the nearest integer (halves to
even) and divide back by 1000. -/
def round3 (q : ℚ) : ℚ := mkRat (pyRoundFrac (q.num * 1000) q.den) 1000

/-- Python `round(x, 1)`. -/
def round1 (q : ℚ) : ℚ := mkRat (pyRoundFrac (q.num * 10) q.den) 10

/-- Rational multiplication computed directly on numerators and denominators
(no interaction with the kernel-opaque `Rat.mul`); agrees with `*` by
`ratMul_eq`. -/
def ratMul (a b : ℚ) : ℚ := mkRat (a.num * b.num) (a.den * b.den)

theorem ratMul_eq (a b : ℚ) : ratMul a b = a * b := by
  rw [ratMul, Rat.mkRat_eq_div]
  push_cast
  rw [← div_mul_div_comm, Rat.num_div_den, Rat.num_div_den]

theorem fdiv_eq_floor (n : ℤ) (d : ℕ) : n.fdiv d = ⌊(n : ℚ) / (d : ℚ)⌋ := by
  rw [Rat.floor_intCast_div_natCast, Int.fdiv_eq_ediv _ (by positivity)]

theorem pyRoundFrac_cases (n : ℤ) (d : ℕ) :
    pyRoundFrac n d = n.fdiv d ∨ pyRoundFrac n d = n.fdiv d + 1 := by
  unfold pyRoundFrac
  split
  · exact Or.inl rfl
  · split
    · exact Or.inr rfl
    · split
      · exact Or.inl rfl
      · exact Or.inr rfl

theorem le_pyRoundFrac (n : ℤ) (d : ℕ) (k : ℤ)
    (h : (k : ℚ) ≤ (n : ℚ) / (d : ℚ)) : k ≤ pyRoundFrac n d := by
  have hf : k ≤ n.fdiv d := by
    rw [fdiv_eq_floor]
    exact Int.le_floor.mpr h
  rcases pyRoundFrac_cases n d with h' | h' <;> omega

theorem pyRoundFrac_le (n : ℤ) (d : ℕ) (hd : 0 < d) (k : ℤ)
    (h : (n : ℚ) / (d : ℚ) ≤ (k : ℚ)) : pyRoundFrac n d ≤ k := by
  have hdq : (0 : ℚ) < (d : ℚ) := by exact_mod_cast hd
  have hf : n.fdiv d ≤ k := by
    rw [fdiv_eq_floor]
    calc ⌊(n : ℚ) / (d : ℚ)⌋ ≤ ⌊(k : ℚ)⌋ := Int.floor_le_floor h
    _ = k := Int.floor_intCast k
  have hrem : (0:ℤ) ≤ n - n.fdiv d * d := by
    have hle : n.fdiv d * d ≤ n := by
      have h1 : ((n.fdiv d : ℤ) : ℚ) ≤ (n : ℚ) / (d : ℚ) := by
        rw [fdiv_eq_floor]
        exact Int.floor_le _
      have h2 : ((n.fdiv d : ℤ) : ℚ) * (d : ℚ) ≤ (n : ℚ) := by
        rw [← le_div_iff₀ hdq]
        exact h1
      exact_mod_cast h2
    omega
  unfold pyRoundFrac
  split
  · exact hf
  · -- remaining branches have fractional part ≥ 1/2
    have hge : (d : ℤ) ≤ 2 * (n - n.fdiv d * d) := by omega
    have hlt : n.fdiv d < k := by
      rcases lt_or_eq_of_le hf with h' | h'
      · exact h'
      · exfalso
        -- with n.fdiv d = k and n/d ≤ k we get n ≤ k*d, so the remainder is ≤ 0
        have hnk : (n : ℚ) ≤ (k : ℚ) * (d : ℚ) := by
          rw [← div_le_iff₀ hdq]
          exact h
        have hnk' : n ≤ k * d := by exact_mod_cast hnk
        rw [h'] at hge
        omega
    split
    · omega
    · split <;> omega

theorem pyRoundFrac_ge_sub_half (n : ℤ) (d : ℕ) (hd : 0 < d) :
    (n : ℚ) / (d : ℚ) - 1/2 ≤ (pyRoundFrac n d : ℚ) := by
  have hdq : (0 : ℚ) < (d : ℚ) := by exact_mod_cast hd
  have hfl : ((n.fdiv d : ℤ) : ℚ) ≤ (n : ℚ) / (d : ℚ) := by
    rw [fdiv_eq_floor]; exact Int.floor_le _
  have hfu : (n : ℚ) / (d : ℚ) < ((n.fdiv d : ℤ) : ℚ) + 1 := by
    rw [fdiv_eq_floor]; exact Int.lt_floor_add_one _
  unfold pyRoundFrac
  split
  · -- fractional part < 1/2
    have hc : 2 * (n - n.fdiv d * d) < (d : ℤ) := by assumption
    have hcq : 2 * ((n : ℚ) - (n.fdiv d : ℤ) * (d : ℚ)) < (d : ℚ) := by exact_mod_cast hc
    rw [div_sub' _ _ _ (ne_of_gt hdq), div_le_iff₀ hdq]
    push_cast at hcq ⊢
    nlinarith
  · split
    · push_cast
      linarith
    · -- exact half: result is fdiv or fdiv + 1, and the value is fdiv + 1/2
      have hc : ¬ ((d : ℤ) < 2 * (n - n.fdiv d * d)) := by assumption
      have hc' : 2 * (n - n.fdiv d * d) ≤ (d : ℤ) := by omega
      have hcq : 2 * ((n : ℚ) - (n.fdiv d : ℤ) * (d : ℚ)) ≤ (d : ℚ) := by exact_mod_cast hc'
      have hkey : (n : ℚ) / (d : ℚ) - 1/2 ≤ ((n.fdiv d : ℤ) : ℚ) := by
        rw [sub_le_iff_le_add, div_le_iff₀ hdq]
        push_cast at hcq ⊢
        nlinarith
      split
      · exact hkey
      · push_cast
        push_cast at hkey
        linarith

theorem round3_eq (q : ℚ) :
    round3 q = ((pyRoundFrac (q.num * 1000) q.den : ℤ) : ℚ) / 1000 := by
  rw [round3, Rat.mkRat_eq_div]
  norm_num

theorem scale1000_eq (q : ℚ) :
    ((q.num * 1000 : ℤ) : ℚ) / ((q.den : ℕ) : ℚ) = q * 1000 := by
  push_cast
  rw [mul_comm (q.num : ℚ) 1000, mul_div_assoc, Rat.num_div_den, mul_comm]

theorem round3_ge_of_grid_le (k : ℤ) (q : ℚ) (h : (k : ℚ)/1000 ≤ q) :
    (k : ℚ)/1000 ≤ round3 q := by
  rw [round3_eq]
  have hk : (k : ℚ) ≤ ((q.num * 1000 : ℤ) : ℚ) / ((q.den : ℕ) : ℚ) := by
    rw [scale1000_eq]
    linarith
  have := le_pyRoundFrac (q.num * 1000) q.den k hk
  have hcast : (k : ℚ) ≤ ((pyRoundFrac (q.num * 1000) q.den : ℤ) : ℚ) := by exact_mod_cast this
  linarith

theorem round3_le_of_le_grid (k : ℤ) (q : ℚ) (h : q ≤ (k : ℚ)/1000) :
    round3 q ≤ (k : ℚ)/1000 := by
  rw [round3_eq]
  have hk : ((q.num * 1000 : ℤ) : ℚ) / ((q.den : ℕ) : ℚ) ≤ (k : ℚ) := by
    rw [scale1000_eq]
    linarith
  have := pyRoundFrac_le (q.num * 1000) q.den q.den_pos k hk
  have hcast : ((pyRoundFrac (q.num * 1000) q.den : ℤ) : ℚ) ≤ (k : ℚ) := by exact_mod_cast this
  linarith

theorem round3_ge_sub (q : ℚ) : q - 1/2000 ≤ round3 q := by
  rw [round3_eq]
  have := pyRoundFrac_ge_sub_half (q.num * 1000) q.den q.den_pos
  rw [scale1000_eq] at this
  linarith

end PyFloat

open PyFloat

namespace SentimentEngine

/-- The abstract outcome of one fitted scikit-learn pipeline's
`predict_proba` on one text: the arg-max class label together with its
(raw, un-rounded) probability.  This abstracts `_SENTIMENT_PIPE` /
`_EMOTION_PIPE` of `sentiment_engine.py`. -/
structure PipeOutput where
  label : String
  prob : ℚ
deriving DecidableEq

/-- The result dictionary of `SentimentAnalyser.analyse`. -/
structure SentimentResult where
  polarity : String
  polarity_conf : ℚ
  emotion : String
  emotion_conf : ℚ
  subjectivity : String
  emoji : String
deriving DecidableEq

/-- `_EMOJI_MAP` of `sentiment_engine.py`. -/
def _EMOJI_MAP : List (String × String) :=
  [("joy", "😄"), ("anger", "😠"), ("sadness", "😢"),
   ("fear", "😨"), ("surprise", "😲"), ("neutral", "😐")]

/-- `_EMOJI_MAP.get(emotion, "😐")`. -/
def emojiFor (emotion : String) : String := (_EMOJI_MAP.lookup emotion).getD "😐"

/-- `_default_result()` of `sentiment_engine.py`. -/
def _default_result : SentimentResult :=
  { polarity := "neutral", polarity_conf := mkRat 1 2,
    emotion := "neutral", emotion_conf := mkRat 1 2,
    subjectivity := "objective", emoji := "😐" }

/-- The `_NEG_EMOTIONS` set of `SentimentAnalyser.analyse`. -/
def _NEG_EMOTIONS : List String := ["anger", "fear", "sadness"]

/-- The `subj_words` lexicon of `SentimentAnalyser.analyse`. -/
def subj_words : List String :=
  ["feel", "love", "hate", "amazing", "terrible", "happy", "sad",
   "great", "awful", "wonderful", "horrible", "excited", "angry",
   "beautiful", "ugly", "best", "worst", "enjoy", "dislike"]

/-- Python `str.split()`: split on whitespace, dropping empty pieces. -/
def pySplit (s : String) : List String :=
  (s.split Char.isWhitespace).filter (fun t => t ≠ "")

/-- Python's guard `not text or not text.strip()`: true exactly when every
character of `text` is whitespace (in particular when `text` is empty). -/
def isBlank (s : String) : Bool := s.data.all Char.isWhitespace

/-- `SentimentAnalyser.analyse` of `sentiment_engine.py`, with the two fitted
pipelines abstracted as oracles `sp` (polarity) and `ep` (emotion).
`mkRat 7 10` is the literal `0.70`, `mkRat 85 100` the literal `0.85`. -/
def analyse (sp ep : String → PipeOutput) (text : String) : SentimentResult :=
  if isBlank text then _default_result
  else
    let polarity := (sp text).label
    let pol_conf := round3 (sp text).prob
    let emotion := (ep text).label
    let emo_conf := round3 (ep text).prob
    let fix : Bool := emotion ∈ _NEG_EMOTIONS ∧ polarity = "neutral" ∧ pol_conf < mkRat 7 10
    let polarity2 := if fix then "negative" else polarity
    let pol_conf2 := if fix then round3 (max pol_conf (ratMul emo_conf (mkRat 85 100))) else pol_conf
    let subjectivity :=
      if (pySplit text.toLower).any (fun t => subj_words.contains t) then "subjective"
      else "objective"
    { polarity := polarity2, polarity_conf := pol_conf2,
      emotion := emotion, emotion_conf := emo_conf,
      subjectivity := subjectivity, emoji := emojiFor emotion }

/-- Claim C1: for every input whose emotion classification lands in
{anger, fear, sadness} while the raw polarity classification lands on
"neutral" with (3-decimal-rounded) confidence < 0.70,
`SentimentAnalyser.analyse` returns polarity "negative" with confidence
`round3 (max pol_conf (emo_conf * 0.85))`; this confidence is ≥ the original
polarity confidence exactly, and ≥ `emo_conf * 0.85` up to the rounding
tolerance 1/2000. -/
theorem analyse_reconciliation (sp ep : String → PipeOutput) (text : String)
    (hb : isBlank text = false)
    (he : (ep text).label ∈ _NEG_EMOTIONS)
    (hp : (sp text).label = "neutral")
    (hc : round3 (sp text).prob < mkRat 7 10) :
    (analyse sp ep text).polarity = "negative" ∧
    (analyse sp ep text).polarity_conf
      = round3 (max (round3 (sp text).prob) (ratMul (round3 (ep text).prob) (mkRat 85 100))) ∧
    round3 (sp text).prob ≤ (analyse sp ep text).polarity_conf ∧
    round3 (ep text).prob * (85/100) - 1/2000 ≤ (analyse sp ep text).polarity_conf := by
  have hfix : ((ep text).label ∈ _NEG_EMOTIONS ∧ (sp text).label = "neutral" ∧
      round3 (sp text).prob < mkRat 7 10) := ⟨he, hp, hc⟩
  have h1 : (analyse sp ep text).polarity = "negative" := by
    unfold analyse
    rw [hb]
    simp only [Bool.false_eq_true, if_false, decide_eq_true_eq]
    simp [hfix]
  have h2 : (analyse sp ep text).polarity_conf
      = round3 (max (round3 (sp text).prob) (ratMul (round3 (ep text).prob) (mkRat 85 100))) := by
    unfold analyse
    rw [hb]
    simp only [Bool.false_eq_true, if_false, decide_eq_true_eq]
    simp [hfix]
  refine ⟨h1, h2, ?_, ?_⟩
  · rw [h2, round3_eq ((sp text).prob)]
    exact round3_ge_of_grid_le (pyRoundFrac ((sp text).prob.num * 1000) (sp text).prob.den) _
      (le_max_left _ _)
  · rw [h2]
    have hm : ratMul (round3 (ep text).prob) (mkRat 85 100)
        ≤ max (round3 (sp text).prob) (ratMul (round3 (ep text).prob) (mkRat 85 100)) :=
      le_max_right _ _
    have hsub := round3_ge_sub
      (max (round3 (sp text).prob) (ratMul (round3 (ep text).prob) (mkRat 85 100)))
    have hval : ratMul (round3 (ep text).prob) (mkRat 85 100)
        = round3 (ep text).prob * (85/100) := by
      rw [ratMul_eq]
      norm_num [Rat.mkRat_eq_div]
    rw [← hval]
    exact le_trans (sub_le_sub_right hm _) hsub

/-- Witness for C1 at a concrete input: raw polarity ("neutral", 0.6), raw
emotion ("fear", 0.9); the corrected confidence is round3 (max 0.6 0.765)
= 0.765. -/
theorem analyse_reconciliation_witness :
    (analyse (fun _ => ⟨"neutral", mkRat 3 5⟩) (fun _ => ⟨"fear", mkRat 9 10⟩) "ok").polarity
      = "negative" ∧
    (analyse (fun _ => ⟨"neutral", mkRat 3 5⟩) (fun _ => ⟨"fear", mkRat 9 10⟩) "ok").polarity_conf
      = mkRat 153 200 := by
  have h := analyse_reconciliation (fun _ => ⟨"neutral", mkRat 3 5⟩)
    (fun _ => ⟨"fear", mkRat 9 10⟩) "ok" (by decide) (by decide) rfl (by decide)
  refine ⟨h.1, ?_⟩
  rw [h.2.1]
  decide

end SentimentEngine

namespace GeminiClient

open SentimentEngine

/-- `MAX_RETRIES` of `gemini_client.py`. -/
def MAX_RETRIES : ℕ := 3

/-- Python `str.strip()`: drop leading and trailing whitespace. -/
def pyStrip (s : String) : String :=
  ⟨((s.data.dropWhile Char.isWhitespace).reverse.dropWhile Char.isWhitespace).reverse⟩

/-- Helper for `splitLinesNl`: split a character list at newline characters. -/
def splitNl (cs : List Char) : List (List Char) :=
  cs.foldr
    (fun c acc =>
      if c = '\n' then [] :: acc
      else
        match acc with
        | [] => [[c]]
        | h :: t => (c :: h) :: t)
    [[]]

/-- `text.splitlines()` restricted to `'\n'` line endings (the only line
ending the program produces). -/
def splitLinesNl (s : String) : List String := (splitNl s.data).map (fun l => ⟨l⟩)

/-- `_post_process` of `gemini_client.py`: strip every line, rejoin, strip the
whole; an empty backend response is replaced by an explicit marker. -/
def _post_process (text : String) : String :=
  if text = "" then "*(empty response)*"
  else pyStrip (String.intercalate "\n" ((splitLinesNl text).map pyStrip))

/-- `_INTENT_FALLBACKS` of `gemini_client.py`. -/
def _INTENT_FALLBACKS : List (String × String) :=
  [("greeting", "Hello! 👋 I\x27m DynamiChat. How can I help you today?"),
   ("farewell", "Goodbye! 👋 It was great chatting with you. Feel free to come back anytime!"),
   ("thanks", "You\x27re welcome! 😊 Happy to help. Let me know if there\x27s anything else."),
   ("help", "I can chat, answer questions, analyse sentiment, tell jokes, and more. Just ask away!"),
   ("joke", "Why did the AI go to therapy? It had too many unresolved dependencies! 😄"),
   ("weather", "I don\x27t have live weather data, but you can check a weather service for the latest forecast!"),
   ("time_date", "I don\x27t have direct access to your clock, but your device should show the current time.")]

/-- The generic rephrase request used when the intent has no canned entry. -/
def genericFallback : String :=
  "I\x27m here to help! Could you rephrase your question so I can assist better?"

/-- `_fallback_response` of `gemini_client.py`: sentiment-aware apology
followed by the canned intent-keyed response (or the generic request). -/
def _fallback_response (intent : String) (sentiment : Option SentimentResult) : String :=
  (match sentiment with
   | some s => if s.polarity = "negative" then "I\x27m sorry you\x27re having a tough time. " else ""
   | none => "")
  ++ ((_INTENT_FALLBACKS.lookup intent).getD genericFallback)

/-- The retry loop of `GeminiClient.respond`.  `backend n` is the outcome of
the `n`-th `send_message` call (`none` = the call raised); `attempt` is the
1-based attempt counter and `remaining` the number of loop iterations left
(`MAX_RETRIES` at entry).  Returns (number of attempts made, reply text).
The `remaining = 0` base case mirrors the unreachable `return` after the
`for` loop. -/
def respondLoop (backend : ℕ → Option String) (intent : String)
    (sentiment : Option SentimentResult) : ℕ → ℕ → ℕ × String
  | attempt, 0 => (attempt - 1, _fallback_response intent sentiment)
  | attempt, remaining + 1 =>
    match backend attempt with
    | some txt => (attempt, _post_process txt)
    | none =>
      if remaining = 0 then (attempt, _fallback_response intent sentiment)
      else respondLoop backend intent sentiment (attempt + 1) remaining

/-- `GeminiClient.respond` of `gemini_client.py` (the enriched prompt is
fixed across attempts, so `backend` abstracts `send_message` per attempt
number). -/
def respond (backend : ℕ → Option String) (intent : String)
    (sentiment : Option SentimentResult) : ℕ × String :=
  respondLoop backend intent sentiment 1 MAX_RETRIES

/-- Claim C2: when the backend raises on every call, `respond` makes exactly
3 attempts and returns the deterministic fallback — the sentiment-aware
apology (present exactly when polarity is "negative") followed by the canned
intent-keyed response, or by the generic rephrase request when the intent has
no canned entry; when the backend fails on attempt 1 and succeeds on attempt
2, exactly 2 attempts are made and the post-processed backend text is
returned. -/
theorem respond_retry (backend : ℕ → Option String) (intent : String)
    (sentiment : Option SentimentResult) :
    ((∀ n, backend n = none) →
      respond backend intent sentiment
        = (3, (match sentiment with
               | some s =>
                 if s.polarity = "negative" then "I\x27m sorry you\x27re having a tough time. "
                 else ""
               | none => "")
              ++ ((_INTENT_FALLBACKS.lookup intent).getD genericFallback))) ∧
    (backend 1 = none → ∀ t, backend 2 = some t →
      respond backend intent sentiment = (2, _post_process t)) := by
  constructor
  · intro h
    show respondLoop backend intent sentiment 1 MAX_RETRIES = _
    rw [MAX_RETRIES]
    rw [respondLoop, h 1]
    simp only [if_neg (by omega : ¬ (2 = 0))]
    rw [respondLoop, h 2]
    simp only [if_neg (by omega : ¬ (1 = 0))]
    rw [respondLoop, h 3]
    simp only [if_pos rfl]
    rfl
  · intro h1 t h2
    show respondLoop backend intent sentiment 1 MAX_RETRIES = _
    rw [MAX_RETRIES]
    rw [respondLoop, h1]
    simp only [if_neg (by omega : ¬ (2 = 0))]
    rw [respondLoop, h2]

/-- Witness for C2: an always-failing backend yields 3 attempts and the
canned greeting fallback; a backend that fails once then answers " hi "
yields 2 attempts and the post-processed text. -/
theorem respond_retry_witness :
    respond (fun _ => none) "greeting" none
      = (3, "Hello! 👋 I\x27m DynamiChat. How can I help you today?") ∧
    respond (fun n => if n = 1 then none else some " hi ") "general" none
      = (2, _post_process " hi ") := by
  constructor
  · have h := (respond_retry (fun _ => none) "greeting" none).1 (fun _ => rfl)
    rw [h]
    rfl
  · exact (respond_retry (fun n => if n = 1 then none else some " hi ") "general" none).2
      rfl " hi " rfl

end GeminiClient

namespace NlpEngine

/-- `INTENT_PATTERNS` of `nlp_engine.py`: the ordered catalogue of intent →
list of regex pattern strings (kept verbatim as data; the semantics of
`re.search(pat, text, re.IGNORECASE)` is abstracted by a `rex` oracle). -/
def INTENT_PATTERNS : List (String × List String) :=
  [("greeting",
    ["\\b(hi|hello|hey|howdy|good\\s*(morning|afternoon|evening)|what\x27?s\\s*up|sup|yo)\\b"]),
   ("farewell",
    ["\\b(bye|goodbye|see\\s*you|later|take\\s*care|have\\s*a\\s*(good|nice)\\s*(day|night)|quit|exit)\\b"]),
   ("thanks",
    ["\\b(thank(s|you|s?\\s*a\\s*lot|s?\\s*so\\s*much)|appreciate|grateful|cheers)\\b"]),
   ("help",
    ["\\b(help|assist|support|what\\s*can\\s*you\\s*do|how\\s*do\\s*i|usage|guide)\\b"]),
   ("weather",
    ["\\b(weather|temperature|forecast|rain|sunny|cloudy|wind)\\b"]),
   ("time_date",
    ["\\b(time|date|day|today|tomorrow|yesterday|clock|what\\s*time)\\b"]),
   ("joke",
    ["\\b(joke|funny|laugh|humor|amuse|entertain)\\b"]),
   ("sentiment_query",
    ["\\b(how\\s*(am\\s*i|are\\s*you|do\\s*i\\s*feel)|feel(ing)?|mood|emotion|sentiment)\\b"]),
   ("name_identity",
    ["\\b(your\\s*name|who\\s*are\\s*you|what\\s*are\\s*you|introduce\\s*yourself|are\\s*you\\s*(ai|bot|robot))\\b"]),
   ("capability",
    ["\\b(what\\s*can|features|abilities|skills|trained|capable|do\\s*you\\s*support)\\b"]),
   ("general", [])]

/-- `IntentRecogniser._TFIDF_CORPUS`: one representative sentence per
intent label, in declaration order. -/
def _TFIDF_CORPUS : List (String × String) :=
  [("greeting", "hello hi hey good morning"),
   ("farewell", "bye goodbye see you later take care"),
   ("thanks", "thank you thanks a lot appreciate"),
   ("help", "help me how do I what can you do guide"),
   ("weather", "what is the weather forecast temperature"),
   ("time_date", "what time is it what is today\x27s date"),
   ("joke", "tell me a joke make me laugh funny"),
   ("sentiment_query", "how are you feeling mood emotion"),
   ("name_identity", "what is your name who are you introduce yourself"),
   ("capability", "what features do you have what can you do abilities")]

/-- `self._corpus_labels = list(self._TFIDF_CORPUS.keys())`. -/
def _corpus_labels : List String := _TFIDF_CORPUS.map Prod.fst

/-- Stage 1 of `IntentRecogniser.predict`: the first catalogue entry (in
order, skipping "general") one of whose patterns matches, if any. -/
def regexStage (rex : String → String → Bool) (text : String) : Option String :=
  INTENT_PATTERNS.findSome? (fun lp =>
    if lp.1 = "general" then none
    else if lp.2.any (fun p => rex p text) then some lp.1 else none)

/-- `IntentRecogniser.predict` of `nlp_engine.py`.  `rex pat text`
abstracts `re.search(pat, text, re.IGNORECASE) is not None`; `stat`
abstracts the outcome of the TF-IDF stage's `try` block: `none` when the
transform raised, otherwise the arg-max reference index with its (raw)
cosine similarity.  `mkRat 95 100` is the literal 0.95, `mkRat 12 100`
the 0.12 threshold. -/
def predict (rex : String → String → Bool)
    (stat : Option (Fin _corpus_labels.length × ℚ)) (text : String) : String × ℚ :=
  match regexStage rex text with
  | some label => (label, mkRat 95 100)
  | none =>
    match stat with
    | some (idx, sim) =>
      if mkRat 12 100 < sim then (_corpus_labels.get idx, round3 sim)
      else ("general", mkRat 1 2)
    | none => ("general", mkRat 1 2)

theorem findSome_skip {α β : Type} (f : α → Option β) (l1 l2 : List α)
    (h : ∀ x ∈ l1, f x = none) : (l1 ++ l2).findSome? f = l2.findSome? f := by
  induction l1 with
  | nil => rfl
  | cons a t ih =>
    have ha : f a = none := h a (List.mem_cons_self a t)
    simp only [List.cons_append, List.findSome?_cons, ha]
    exact ih (fun x hx => h x (List.mem_cons_of_mem a hx))

theorem findSome_none {α β : Type} (f : α → Option β) (l : List α)
    (h : ∀ x ∈ l, f x = none) : l.findSome? f = none := by
  induction l with
  | nil => rfl
  | cons a t ih =>
    have ha : f a = none := h a (List.mem_cons_self a t)
    simp only [List.findSome?_cons, ha]
    exact ih (fun x hx => h x (List.mem_cons_of_mem a hx))

theorem findSome_mem {α β : Type} (f : α → Option β) (l : List α) (b : β)
    (h : l.findSome? f = some b) : ∃ a ∈ l, f a = some b := by
  induction l with
  | nil => simp [List.findSome?_nil] at h
  | cons a t ih =>
    cases hfa : f a with
    | some c =>
      simp only [List.findSome?_cons, hfa] at h
      exact ⟨a, List.mem_cons_self a t, by rw [hfa]; exact h⟩
    | none =>
      simp only [List.findSome?_cons, hfa] at h
      obtain ⟨x, hx, hfx⟩ := ih h
      exact ⟨x, List.mem_cons_of_mem a hx, hfx⟩

/-- In the catalogue, the "general" entry is the only one and has no
patterns. -/
theorem general_has_no_patterns :
    ∀ lp ∈ INTENT_PATTERNS, lp.1 = "general" → lp.2 = [] := by decide

/-- No reference-corpus label is "general". -/
theorem corpus_labels_ne_general :
    ∀ i : Fin _corpus_labels.length, _corpus_labels.get i ≠ "general" := by decide

/-- Claim C4: if the catalogue splits as `l1 ++ (label, pats) :: l2` where no
pattern of any entry of `l1` matches the text and some pattern of `pats`
does, then `predict` returns `(label, 0.95)` — the first matching entry in
catalogue order wins, with fixed confidence 0.95, regardless of the state
`stat` of the statistical model. -/
theorem predict_regex_first (rex : String → String → Bool)
    (stat : Option (Fin _corpus_labels.length × ℚ)) (text : String)
    (l1 l2 : List (String × List String)) (label : String) (pats : List String)
    (hsplit : INTENT_PATTERNS = l1 ++ (label, pats) :: l2)
    (hbefore : ∀ lp ∈ l1, ∀ p ∈ lp.2, rex p text = false)
    (hhit : ∃ p ∈ pats, rex p text = true) :
    predict rex stat text = (label, mkRat 95 100) := by
  have hmem : (label, pats) ∈ INTENT_PATTERNS := by
    rw [hsplit]
    exact List.mem_append_right _ (List.mem_cons_self _ _)
  have hne : label ≠ "general" := by
    intro hg
    have hp2 : pats = [] := general_has_no_patterns (label, pats) hmem hg
    rw [hp2] at hhit
    obtain ⟨p, hp, _⟩ := hhit
    exact absurd hp (List.not_mem_nil p)
  have hany : pats.any (fun p => rex p text) = true := by
    rw [List.any_eq_true]
    obtain ⟨p, hp, hm⟩ := hhit
    exact ⟨p, hp, hm⟩
  have hstage : regexStage rex text = some label := by
    rw [regexStage, hsplit]
    rw [findSome_skip _ l1 _ ?hnone]
    case hnone =>
      intro lp hlp
      by_cases hg : lp.1 = "general"
      · simp [hg]
      · have : lp.2.any (fun p => rex p text) = false := by
          rw [List.any_eq_false]
          intro p hp
          simp [hbefore lp hlp p hp]
        simp [hg, this]
    rw [List.findSome?_cons]
    simp [hne, hany]
  rw [predict.eq_def, hstage]

/-- Witness for C4: a text matching (only) the first, "greeting", catalogue
entry is classified ("greeting", 0.95) whatever the statistical stage says. -/
theorem predict_regex_first_witness :
    predict (fun _ t => t == "hi") (some (⟨3, by decide⟩, mkRat 9 10)) "hi"
      = ("greeting", mkRat 95 100) := by
  have h := predict_regex_first (fun _ t => t == "hi")
    (some (⟨3, by decide⟩, mkRat 9 10)) "hi" []
    (INTENT_PATTERNS.tail) "greeting"
    ["\\b(hi|hello|hey|howdy|good\\s*(morning|afternoon|evening)|what\x27?s\\s*up|sup|yo)\\b"]
    (by decide)
    (by intro lp hlp; exact absurd hlp (List.not_mem_nil lp))
    ⟨"\\b(hi|hello|hey|howdy|good\\s*(morning|afternoon|evening)|what\x27?s\\s*up|sup|yo)\\b",
      by decide, by decide⟩
  exact h

/-- Stage 1 misses entirely when no catalogue entry has a matching pattern. -/
theorem regexStage_none (rex : String → String → Bool) (text : String)
    (h : ∀ lp ∈ INTENT_PATTERNS, ∀ p ∈ lp.2, rex p text = false) :
    regexStage rex text = none := by
  rw [regexStage]
  apply findSome_none
  intro lp hlp
  by_cases hg : lp.1 = "general"
  · simp [hg]
  · have : lp.2.any (fun p => rex p text) = false := by
      rw [List.any_eq_false]
      intro p hp
      simp [h lp hlp p hp]
    simp [hg, this]

/-- Claim C5, amended: on an input matching no catalogue pattern, the
statistical fallback returns exactly ("general", 0.50) when the transform
fails or the best similarity is ≤ 0.12; otherwise it returns the arg-max
reference label with the best similarity rounded to 3 decimals — a value
that is ≥ 0.12 (not necessarily > 0.12: rounding can pull it down onto the
boundary) and ≤ 1 whenever the similarity itself is ≤ 1. -/
theorem predict_no_regex (rex : String → String → Bool)
    (stat : Option (Fin _corpus_labels.length × ℚ)) (text : String)
    (hno : ∀ lp ∈ INTENT_PATTERNS, ∀ p ∈ lp.2, rex p text = false) :
    (stat = none → predict rex stat text = ("general", mkRat 1 2)) ∧
    (∀ idx sim, stat = some (idx, sim) →
      (¬ mkRat 12 100 < sim → predict rex stat text = ("general", mkRat 1 2)) ∧
      (mkRat 12 100 < sim → sim ≤ 1 →
        predict rex stat text = (_corpus_labels.get idx, round3 sim) ∧
        mkRat 12 100 ≤ round3 sim ∧ round3 sim ≤ 1)) := by
  have hstage := regexStage_none rex text hno
  constructor
  · intro hs
    rw [predict.eq_def, hstage, hs]
  · intro idx sim hs
    constructor
    · intro hlt
      rw [predict.eq_def, hstage, hs]
      simp [hlt]
    · intro hlt hle
      refine ⟨by rw [predict.eq_def, hstage, hs]; simp [hlt], ?_, ?_⟩
      · have h12 : ((120 : ℤ) : ℚ)/1000 ≤ sim := by
          have : mkRat 12 100 = ((120 : ℤ) : ℚ)/1000 := by
            rw [Rat.mkRat_eq_div]
            norm_num
          rw [← this]
          exact le_of_lt hlt
        have := round3_ge_of_grid_le 120 sim h12
        have hval : mkRat 12 100 = ((120 : ℤ) : ℚ)/1000 := by
          rw [Rat.mkRat_eq_div]
          norm_num
        rw [hval]
        exact this
      · have h1 : sim ≤ ((1000 : ℤ) : ℚ)/1000 := by norm_num [hle]
        have := round3_le_of_le_grid 1000 sim h1
        have hval : ((1000 : ℤ) : ℚ)/1000 = 1 := by norm_num
        rw [hval] at this
        exact this

/-- Witness for C5 (amended): with no regex match and similarity 0.8 the
result is ("greeting", 0.8); with similarity 0.1 it is ("general", 0.5);
with a failed transform it is ("general", 0.5). -/
theorem predict_no_regex_witness :
    predict (fun _ _ => false) (some (⟨0, by decide⟩, mkRat 4 5)) "xqz"
      = ("greeting", mkRat 4 5) ∧
    predict (fun _ _ => false) (some (⟨0, by decide⟩, mkRat 1 10)) "xqz"
      = ("general", mkRat 1 2) ∧
    predict (fun _ _ => false) none "xqz" = ("general", mkRat 1 2) := by
  refine ⟨?_, ?_, ?_⟩
  · have h := ((predict_no_regex (fun _ _ => false) (some (⟨0, by decide⟩, mkRat 4 5)) "xqz"
      (by decide)).2 ⟨0, by decide⟩ (mkRat 4 5) rfl).2 (by decide) (by decide)
    rw [h.1]
    decide
  · exact ((predict_no_regex (fun _ _ => false) (some (⟨0, by decide⟩, mkRat 1 10)) "xqz"
      (by decide)).2 ⟨0, by decide⟩ (mkRat 1 10) rfl).1 (by decide)
  · exact (predict_no_regex (fun _ _ => false) none "xqz" (by decide)).1 rfl

/-- Counterexample to claim C5 as stated: with no regex match and best
similarity 0.1203 (strictly above the 0.12 acceptance bar), the returned
confidence is round(0.1203, 3) = 0.12 — equal to the boundary, hence
neither 0.50 nor in the open-closed interval (0.12, 1.0], and not equal to
the best similarity. -/
theorem predict_conf_boundary_counterexample :
    (predict (fun _ _ => false) (some (⟨0, by decide⟩, mkRat 1203 10000)) "xqz").2
        = mkRat 12 100 ∧
    ¬ ((predict (fun _ _ => false) (some (⟨0, by decide⟩, mkRat 1203 10000)) "xqz").2
          = mkRat 1 2 ∨
       (mkRat 12 100
          < (predict (fun _ _ => false) (some (⟨0, by decide⟩, mkRat 1203 10000)) "xqz").2 ∧
        (predict (fun _ _ => false) (some (⟨0, by decide⟩, mkRat 1203 10000)) "xqz").2 ≤ 1)) ∧
    (predict (fun _ _ => false) (some (⟨0, by decide⟩, mkRat 1203 10000)) "xqz").2
        ≠ mkRat 1203 10000 := by decide

/-- Claim C10: whenever `predict` returns the label "general", the returned
confidence is exactly 0.50 — "general" arises only from the fixed fallback
pair, never from the regex stage (which skips it) nor from the statistical
stage (no reference label is "general"). -/
theorem predict_general_half (rex : String → String → Bool)
    (stat : Option (Fin _corpus_labels.length × ℚ)) (text : String)
    (h : (predict rex stat text).1 = "general") :
    (predict rex stat text).2 = mkRat 1 2 := by
  rw [predict.eq_def] at h ⊢
  cases hstage : regexStage rex text with
  | some label =>
    have hlab : label ≠ "general" := by
      obtain ⟨lp, hlp, hfl⟩ := findSome_mem _ _ _ hstage
      by_cases hg : lp.1 = "general"
      · simp [hg] at hfl
      · have heq : label = lp.1 := by
          simp only [hg, if_false] at hfl
          by_cases ha : lp.2.any (fun p => rex p text)
          · simp [ha] at hfl
            exact hfl.symm
          · simp [ha] at hfl
        rw [heq]
        exact hg
    simp only [hstage] at h
    exact absurd h hlab
  | none =>
    simp only [hstage] at h ⊢
    cases hs : stat with
    | none => rfl
    | some p =>
      obtain ⟨idx, sim⟩ := p
      simp only [hs] at h ⊢
      by_cases hlt : mkRat 12 100 < sim
      · exfalso
        simp only [hlt, if_true, if_pos] at h
        exact corpus_labels_ne_general idx h
      · simp [hlt]

/-- Witness for C10: an input with no regex hit and a failed transform is
classified "general", and the theorem then forces confidence 0.50. -/
theorem predict_general_half_witness :
    (predict (fun _ _ => false) none "qqq").2 = mkRat 1 2 :=
  predict_general_half (fun _ _ => false) none "qqq" (by decide)

end NlpEngine

namespace NlpEngine

/-- The regex sweep of `IntentRecogniser.predict_multi`: one hit per
matching catalogue entry (the inner `break`), in catalogue order, each with
fixed confidence 0.95. -/
def regexHits (rex : String → String → Bool) (text : String) : List (String × ℚ) :=
  INTENT_PATTERNS.filterMap (fun lp =>
    if lp.1 = "general" then none
    else if lp.2.any (fun p => rex p text) then some (lp.1, mkRat 95 100) else none)

/-- The statistical candidates of `predict_multi`: `ranked` abstracts the
outcome of the `try` block (`none` = the transform raised; otherwise the
arg-sorted index list already truncated to `top_k`, paired with the raw
similarities); only candidates with similarity > 0.05 are kept, their
confidence rounded to 3 decimals. -/
def statHits (ranked : Option (List (Fin _corpus_labels.length × ℚ))) : List (String × ℚ) :=
  match ranked with
  | none => []
  | some l =>
    l.filterMap (fun is =>
      if mkRat 5 100 < is.2 then some (_corpus_labels.get is.1, round3 is.2) else none)

/-- The `hits` list of `predict_multi` before deduplication: all regex hits;
statistical candidates only when there are zero regex hits; the
("general", 0.50) pair when both stages are empty. -/
def multiHits (rex : String → String → Bool)
    (ranked : Option (List (Fin _corpus_labels.length × ℚ))) (text : String) :
    List (String × ℚ) :=
  let hits := regexHits rex text
  let hits2 := if hits.isEmpty then hits ++ statHits ranked else hits
  if hits2.isEmpty then [("general", mkRat 1 2)] else hits2

/-- In-place value update of the `seen` dict (`seen[label] = conf`): the key
keeps its insertion position. -/
def updateConf (seen : List (String × ℚ)) (label : String) (conf : ℚ) :
    List (String × ℚ) :=
  seen.map (fun e => if e.1 = label then (e.1, conf) else e)

/-- The `seen` dict build of `predict_multi`: first occurrence of a label
fixes its position, the maximal confidence seen fixes its value. -/
def dedupMaxGo (seen : List (String × ℚ)) : List (String × ℚ) → List (String × ℚ)
  | [] => seen
  | (label, conf) :: rest =>
    match seen.lookup label with
    | none => dedupMaxGo (seen ++ [(label, conf)]) rest
    | some c =>
      if c < conf then dedupMaxGo (updateConf seen label conf) rest
      else dedupMaxGo seen rest

def dedupMax (hits : List (String × ℚ)) : List (String × ℚ) := dedupMaxGo [] hits

/-- The ordering used by `sorted(seen.items(), key=lambda x: -x[1])`:
descending confidence.  `insertionSort` with this (total) relation is
stable, like Python's `sorted`. -/
def confGe (a b : String × ℚ) : Prop := b.2 ≤ a.2

instance : DecidableRel confGe := fun a b => inferInstanceAs (Decidable (b.2 ≤ a.2))

instance : IsTotal (String × ℚ) confGe := ⟨fun a b => le_total b.2 a.2⟩

instance : IsTrans (String × ℚ) confGe := ⟨fun _ _ _ h1 h2 => le_trans h2 h1⟩

/-- `IntentRecogniser.predict_multi` of `nlp_engine.py`: collect hits,
deduplicate keeping the maximal confidence per label, sort by descending
confidence (stably), truncate to `top_k`. -/
def predict_multi (rex : String → String → Bool)
    (ranked : Option (List (Fin _corpus_labels.length × ℚ))) (text : String)
    (top_k : ℕ) : List (String × ℚ) :=
  (List.insertionSort confGe (dedupMax (multiHits rex ranked text))).take top_k

theorem lookup_some_mem {seen : List (String × ℚ)} {k : String} {v : ℚ}
    (h : seen.lookup k = some v) : (k, v) ∈ seen := by
  induction seen with
  | nil => simp [List.lookup] at h
  | cons a t ih =>
    rw [List.lookup_cons] at h
    by_cases hk : k = a.1
    · simp only [hk, beq_self_eq_true, if_true] at h
      have hv : a.2 = v := Option.some.inj h
      rw [hk, ← hv, Prod.mk.eta]
      exact List.mem_cons_self a t
    · have : (k == a.1) = false := by simp [hk]
      rw [this] at h
      simp only [Bool.false_eq_true, if_false] at h
      exact List.mem_cons_of_mem a (ih h)

theorem lookup_none_not_mem {seen : List (String × ℚ)} {k : String}
    (h : seen.lookup k = none) : k ∉ seen.map Prod.fst := by
  induction seen with
  | nil => simp
  | cons a t ih =>
    rw [List.lookup_cons] at h
    by_cases hk : k = a.1
    · simp [hk] at h
    · have hbeq : (k == a.1) = false := by simp [hk]
      rw [hbeq] at h
      simp only [Bool.false_eq_true, if_false] at h
      simp only [List.map_cons, List.mem_cons]
      push_neg
      exact ⟨hk, ih h⟩

theorem not_mem_lookup_none {seen : List (String × ℚ)} {k : String}
    (h : k ∉ seen.map Prod.fst) : seen.lookup k = none := by
  induction seen with
  | nil => rfl
  | cons a t ih =>
    simp only [List.map_cons, List.mem_cons] at h
    push_neg at h
    rw [List.lookup_cons]
    have hbeq : (k == a.1) = false := by simp [h.1]
    rw [hbeq]
    simp only [Bool.false_eq_true, if_false]
    exact ih h.2

theorem keys_nodup_unique {seen : List (String × ℚ)}
    (hnd : (seen.map Prod.fst).Nodup) {k : String} {v1 v2 : ℚ}
    (h1 : (k, v1) ∈ seen) (h2 : (k, v2) ∈ seen) : v1 = v2 := by
  induction seen with
  | nil => simp at h1
  | cons a t ih =>
    simp only [List.map_cons, List.nodup_cons] at hnd
    rcases List.mem_cons.mp h1 with he1 | ht1 <;>
      rcases List.mem_cons.mp h2 with he2 | ht2
    · rw [← he1] at he2
      exact (congrArg Prod.snd he2).symm
    · exfalso
      apply hnd.1
      have : a.1 = k := by rw [← he1]
      rw [this]
      exact List.mem_map.mpr ⟨(k, v2), ht2, rfl⟩
    · exfalso
      apply hnd.1
      have : a.1 = k := by rw [← he2]
      rw [this]
      exact List.mem_map.mpr ⟨(k, v1), ht1, rfl⟩
    · exact ih hnd.2 ht1 ht2

theorem updateConf_keys (seen : List (String × ℚ)) (label : String) (conf : ℚ) :
    (updateConf seen label conf).map Prod.fst = seen.map Prod.fst := by
  rw [updateConf, List.map_map]
  apply List.map_congr_left
  intro e _
  by_cases h : e.1 = label <;> simp [h]

theorem mem_updateConf_of_ne {seen : List (String × ℚ)} {label : String} {conf : ℚ}
    {y : String × ℚ} (hy : y ∈ seen) (hne : y.1 ≠ label) :
    y ∈ updateConf seen label conf := by
  rw [updateConf]
  have : (fun e => if e.1 = label then (e.1, conf) else e) y = y := by simp [hne]
  rw [← this]
  exact List.mem_map_of_mem _ hy

theorem mem_updateConf_self {seen : List (String × ℚ)} {label : String} {c conf : ℚ}
    (hm : (label, c) ∈ seen) : (label, conf) ∈ updateConf seen label conf := by
  rw [updateConf]
  have : (fun e => if e.1 = label then (e.1, conf) else e) (label, c) = (label, conf) := by simp
  rw [← this]
  exact List.mem_map_of_mem _ hm

theorem mem_of_mem_updateConf {seen : List (String × ℚ)} {label : String} {conf : ℚ}
    {x : String × ℚ} (hx : x ∈ updateConf seen label conf) :
    x ∈ seen ∨ x = (label, conf) := by
  rw [updateConf] at hx
  obtain ⟨e, he, hex⟩ := List.mem_map.mp hx
  by_cases h : e.1 = label
  · right
    rw [← hex]
    simp [h]
  · left
    rw [← hex]
    simp only [h, if_false]
    exact he

theorem dedupMaxGo_keys_nodup (l : List (String × ℚ)) :
    ∀ seen, (seen.map Prod.fst).Nodup → ((dedupMaxGo seen l).map Prod.fst).Nodup := by
  induction l with
  | nil => intro seen h; exact h
  | cons a rest ih =>
    intro seen hnd
    obtain ⟨label, conf⟩ := a
    rw [dedupMaxGo]
    cases hlk : seen.lookup label with
    | none =>
      apply ih
      rw [List.map_append]
      rw [List.nodup_append]
      refine ⟨hnd, by simp, ?_⟩
      intro x hx
      simp only [List.map_cons, List.map_nil, List.mem_cons, List.not_mem_nil, or_false]
      intro hxl
      rw [hxl] at hx
      exact lookup_none_not_mem hlk hx
    | some c =>
      by_cases hlt : c < conf
      · simp only [hlt, if_true]
        apply ih
        rw [updateConf_keys]
        exact hnd
      · simp only [hlt, if_false]
        exact ih seen hnd

theorem dedupMaxGo_mem (l : List (String × ℚ)) :
    ∀ seen x, x ∈ dedupMaxGo seen l → x ∈ seen ∨ x ∈ l := by
  induction l with
  | nil => intro seen x h; exact Or.inl h
  | cons a rest ih =>
    intro seen x h
    obtain ⟨label, conf⟩ := a
    rw [dedupMaxGo] at h
    cases hlk : seen.lookup label with
    | none =>
      rw [hlk] at h
      rcases ih _ x h with hs | hr
      · rcases List.mem_append.mp hs with hs' | hs'
        · exact Or.inl hs'
        · right
          simp only [List.mem_singleton] at hs'
          rw [hs']
          exact List.mem_cons_self _ _
      · exact Or.inr (List.mem_cons_of_mem _ hr)
    | some c =>
      rw [hlk] at h
      by_cases hlt : c < conf
      · simp only [hlt, if_true] at h
        rcases ih _ x h with hs | hr
        · rcases mem_of_mem_updateConf hs with hs' | hs'
          · exact Or.inl hs'
          · right
            rw [hs']
            exact List.mem_cons_self _ _
        · exact Or.inr (List.mem_cons_of_mem _ hr)
      · simp only [hlt, if_false] at h
        rcases ih _ x h with hs | hr
        · exact Or.inl hs
        · exact Or.inr (List.mem_cons_of_mem _ hr)


theorem dedupMaxGo_max (l : List (String × ℚ)) :
    ∀ seen, (seen.map Prod.fst).Nodup →
      ∀ x ∈ dedupMaxGo seen l,
        (∀ y ∈ seen, y.1 = x.1 → y.2 ≤ x.2) ∧ (∀ y ∈ l, y.1 = x.1 → y.2 ≤ x.2) := by
  induction l with
  | nil =>
    intro seen hnd x hx
    refine ⟨?_, by intro y hy; exact absurd hy (List.not_mem_nil y)⟩
    intro y hy hkey
    have hx' : x ∈ seen := hx
    have h1 : (y.1, y.2) ∈ seen := by rw [Prod.mk.eta]; exact hy
    have h2 : (y.1, x.2) ∈ seen := by rw [hkey, Prod.mk.eta]; exact hx'
    exact le_of_eq (keys_nodup_unique hnd h1 h2)
  | cons a rest ih =>
    intro seen hnd x hx
    obtain ⟨label, conf⟩ := a
    rw [dedupMaxGo] at hx
    cases hlk : seen.lookup label with
    | none =>
      rw [hlk] at hx
      have hnd' : ((seen ++ [(label, conf)]).map Prod.fst).Nodup := by
        rw [List.map_append, List.nodup_append]
        refine ⟨hnd, by simp, ?_⟩
        intro z hz
        simp only [List.map_cons, List.map_nil, List.mem_cons, List.not_mem_nil, or_false]
        intro hzl
        rw [hzl] at hz
        exact lookup_none_not_mem hlk hz
      obtain ⟨hseen, hrest⟩ := ih _ hnd' x hx
      constructor
      · intro y hy hkey
        exact hseen y (List.mem_append_left _ hy) hkey
      · intro y hy hkey
        rcases List.mem_cons.mp hy with he | ht
        · rw [he]
          exact hseen (label, conf) (List.mem_append_right _ (List.mem_singleton.mpr rfl))
            (by rw [he] at hkey; exact hkey)
        · exact hrest y ht hkey
    | some c =>
      rw [hlk] at hx
      have hcm : (label, c) ∈ seen := lookup_some_mem hlk
      by_cases hlt : c < conf
      · simp only [hlt, if_true] at hx
        have hnd' : ((updateConf seen label conf).map Prod.fst).Nodup := by
          rw [updateConf_keys]; exact hnd
        obtain ⟨hseen, hrest⟩ := ih _ hnd' x hx
        constructor
        · intro y hy hkey
          by_cases hyl : y.1 = label
          · -- y is the (unique) entry with key `label`, so y.2 = c < conf ≤ x.2
            have hyc : y.2 = c := by
              have h1 : (y.1, y.2) ∈ seen := by rw [Prod.mk.eta]; exact hy
              have h2 : (y.1, c) ∈ seen := by rw [hyl]; exact hcm
              exact keys_nodup_unique hnd h1 h2
            have hconf : conf ≤ x.2 := by
              have := hseen (label, conf) (mem_updateConf_self hcm)
              exact this (by rw [← hyl]; exact hkey)
            rw [hyc]
            exact le_trans (le_of_lt hlt) hconf
          · exact hseen y (mem_updateConf_of_ne hy hyl) hkey
        · intro y hy hkey
          rcases List.mem_cons.mp hy with he | ht
          · rw [he]
            have := hseen (label, conf) (mem_updateConf_self hcm)
            exact this (by rw [he] at hkey; exact hkey)
          · exact hrest y ht hkey
      · simp only [hlt, if_false] at hx
        obtain ⟨hseen, hrest⟩ := ih _ hnd x hx
        constructor
        · exact hseen
        · intro y hy hkey
          rcases List.mem_cons.mp hy with he | ht
          · have hcle : c ≤ x.2 := hseen (label, c) hcm (by rw [he] at hkey; exact hkey)
            rw [he]
            exact le_trans (le_of_not_lt hlt) hcle
          · exact hrest y ht hkey

theorem dedupMaxGo_of_nodup (l : List (String × ℚ)) :
    ∀ seen, ((seen ++ l).map Prod.fst).Nodup → dedupMaxGo seen l = seen ++ l := by
  induction l with
  | nil => intro seen _; simp [dedupMaxGo]
  | cons a rest ih =>
    intro seen hnd
    obtain ⟨label, conf⟩ := a
    have hnotin : label ∉ seen.map Prod.fst := by
      rw [List.map_append, List.nodup_append] at hnd
      intro hmem
      exact hnd.2.2 hmem (by simp)
    rw [dedupMaxGo, not_mem_lookup_none hnotin]
    have hnd' : (((seen ++ [(label, conf)]) ++ rest).map Prod.fst).Nodup := by
      rw [List.append_assoc]
      simpa using hnd
    rw [ih _ hnd', List.append_assoc]
    rfl

theorem dedupMax_keys_nodup (l : List (String × ℚ)) :
    ((dedupMax l).map Prod.fst).Nodup :=
  dedupMaxGo_keys_nodup l [] (by simp)

theorem dedupMax_mem (l : List (String × ℚ)) (x : String × ℚ)
    (hx : x ∈ dedupMax l) : x ∈ l := by
  rcases dedupMaxGo_mem l [] x hx with hs | hl
  · exact absurd hs (List.not_mem_nil x)
  · exact hl

theorem dedupMax_max (l : List (String × ℚ)) (x : String × ℚ)
    (hx : x ∈ dedupMax l) : ∀ y ∈ l, y.1 = x.1 → y.2 ≤ x.2 :=
  (dedupMaxGo_max l [] (by simp) x hx).2

theorem dedupMax_of_nodup (l : List (String × ℚ))
    (h : (l.map Prod.fst).Nodup) : dedupMax l = l := by
  rw [dedupMax, dedupMaxGo_of_nodup l [] (by simpa using h)]
  rfl

theorem keys_sublist_of_filterMap {α β : Type} (key : α → String)
    (g : α → Option (String × β))
    (hg : ∀ a x, g a = some x → x.1 = key a) (l : List α) :
    ((l.filterMap g).map Prod.fst).Sublist (l.map key) := by
  induction l with
  | nil => simp
  | cons a t ih =>
    cases hga : g a with
    | none =>
      rw [List.filterMap_cons, hga, List.map_cons]
      exact ih.cons _
    | some x =>
      rw [List.filterMap_cons, hga, List.map_cons, List.map_cons, hg a x hga]
      exact ih.cons₂ _

/-- The catalogue labels are pairwise distinct. -/
theorem intent_keys_nodup : (INTENT_PATTERNS.map Prod.fst).Nodup := by decide

theorem regexHits_keys_sublist (rex : String → String → Bool) (text : String) :
    ((regexHits rex text).map Prod.fst).Sublist (INTENT_PATTERNS.map Prod.fst) := by
  apply keys_sublist_of_filterMap Prod.fst
  intro a x hx
  by_cases hg : a.1 = "general"
  · simp [hg] at hx
  · simp only [hg, if_false] at hx
    by_cases ha : a.2.any (fun p => rex p text)
    · simp only [ha, if_true] at hx
      rw [← Option.some.inj hx]
    · simp [ha] at hx

theorem regexHits_keys_nodup (rex : String → String → Bool) (text : String) :
    ((regexHits rex text).map Prod.fst).Nodup :=
  intent_keys_nodup.sublist (regexHits_keys_sublist rex text)

theorem regexHits_conf (rex : String → String → Bool) (text : String) :
    ∀ x ∈ regexHits rex text, x.2 = mkRat 95 100 := by
  intro x hx
  obtain ⟨a, _, ha⟩ := List.mem_filterMap.mp hx
  by_cases hg : a.1 = "general"
  · simp [hg] at ha
  · simp only [hg, if_false] at ha
    by_cases hm : a.2.any (fun p => rex p text)
    · simp only [hm, if_true] at ha
      rw [← Option.some.inj ha]
    · simp [hm] at ha

theorem sorted_of_const_conf (l : List (String × ℚ)) (c : ℚ)
    (h : ∀ x ∈ l, x.2 = c) : List.Sorted confGe l := by
  induction l with
  | nil => exact List.sorted_nil
  | cons a t ih =>
    rw [List.sorted_cons]
    constructor
    · intro b hb
      show b.2 ≤ a.2
      rw [h a (List.mem_cons_self a t), h b (List.mem_cons_of_mem a hb)]
    · exact ih (fun x hx => h x (List.mem_cons_of_mem a hx))

theorem multiHits_of_regex (rex : String → String → Bool)
    (ranked : Option (List (Fin _corpus_labels.length × ℚ))) (text : String)
    (hne : regexHits rex text ≠ []) :
    multiHits rex ranked text = regexHits rex text := by
  rw [multiHits]
  have hie : (regexHits rex text).isEmpty = false := by
    rw [List.isEmpty_eq_false_iff_exists_mem]
    obtain ⟨x, hx⟩ := List.exists_mem_of_ne_nil _ hne
    exact ⟨x, hx⟩
  simp [hie]

theorem multiHits_of_no_regex (rex : String → String → Bool)
    (ranked : Option (List (Fin _corpus_labels.length × ℚ))) (text : String)
    (hemp : regexHits rex text = []) :
    multiHits rex ranked text
      = if (statHits ranked).isEmpty then [("general", mkRat 1 2)] else statHits ranked := by
  rw [multiHits, hemp]
  simp

/-- Claim C8: `predict_multi` returns a list with pairwise-distinct labels,
sorted by descending confidence (`confGe`), of length at most `top_k`; when
there is at least one regex hit the result is exactly the list of regex hits
(one per matching catalogue entry, in catalogue order, each with confidence
0.95) truncated to `top_k`; when there is no regex hit every returned entry
is either the ("general", 0.50) pair or a statistical candidate with raw
similarity > 0.05; and in all cases every returned entry occurs in the hits
list and carries the maximal confidence among hits sharing its label. -/
theorem predict_multi_spec (rex : String → String → Bool)
    (ranked : Option (List (Fin _corpus_labels.length × ℚ))) (text : String)
    (top_k : ℕ) :
    ((predict_multi rex ranked text top_k).map Prod.fst).Nodup ∧
    (predict_multi rex ranked text top_k).Pairwise confGe ∧
    (predict_multi rex ranked text top_k).length ≤ top_k ∧
    (regexHits rex text ≠ [] →
      predict_multi rex ranked text top_k = (regexHits rex text).take top_k) ∧
    (regexHits rex text = [] → ∀ x ∈ predict_multi rex ranked text top_k,
      x = ("general", mkRat 1 2) ∨
      (∃ rl, ranked = some rl ∧ ∃ is ∈ rl, mkRat 5 100 < is.2 ∧
        x = (_corpus_labels.get is.1, round3 is.2))) ∧
    (∀ x ∈ predict_multi rex ranked text top_k,
      x ∈ multiHits rex ranked text ∧
      ∀ y ∈ multiHits rex ranked text, y.1 = x.1 → y.2 ≤ x.2) := by
  have hperm : List.Perm (List.insertionSort confGe (dedupMax (multiHits rex ranked text)))
      (dedupMax (multiHits rex ranked text)) := List.perm_insertionSort _ _
  have hsub : (predict_multi rex ranked text top_k).Sublist
      (List.insertionSort confGe (dedupMax (multiHits rex ranked text))) :=
    List.take_sublist _ _
  have hmem : ∀ x ∈ predict_multi rex ranked text top_k,
      x ∈ dedupMax (multiHits rex ranked text) :=
    fun x hx => hperm.subset (hsub.subset hx)
  refine ⟨?_, ?_, ?_, ?_, ?_, ?_⟩
  · have hnd : ((dedupMax (multiHits rex ranked text)).map Prod.fst).Nodup :=
      dedupMax_keys_nodup _
    have hnd2 : ((List.insertionSort confGe (dedupMax (multiHits rex ranked text))).map
        Prod.fst).Nodup := ((hperm.map Prod.fst).nodup_iff).mpr hnd
    exact hnd2.sublist (hsub.map Prod.fst)
  · exact (List.sorted_insertionSort confGe _).sublist hsub
  · rw [predict_multi]
    exact List.length_take_le _ _
  · intro hne
    rw [predict_multi, multiHits_of_regex rex ranked text hne,
      dedupMax_of_nodup _ (regexHits_keys_nodup rex text),
      (sorted_of_const_conf _ (mkRat 95 100) (regexHits_conf rex text)).insertionSort_eq]
  · intro hemp x hx
    have hxM := dedupMax_mem _ _ (hmem x hx)
    rw [multiHits_of_no_regex rex ranked text hemp] at hxM
    by_cases hse : (statHits ranked).isEmpty
    · rw [if_pos hse] at hxM
      left
      exact List.mem_singleton.mp hxM
    · rw [if_neg hse] at hxM
      right
      cases hrk : ranked with
      | none =>
        rw [hrk] at hxM
        exact absurd hxM (List.not_mem_nil x)
      | some rl =>
        refine ⟨rl, rfl, ?_⟩
        rw [hrk, statHits] at hxM
        obtain ⟨is, hin, his⟩ := List.mem_filterMap.mp hxM
        by_cases hgt : mkRat 5 100 < is.2
        · simp only [hgt, if_true] at his
          exact ⟨is, hin, hgt, (Option.some.inj his).symm⟩
        · simp [hgt] at his
  · intro x hx
    exact ⟨dedupMax_mem _ _ (hmem x hx), dedupMax_max _ _ (hmem x hx)⟩

/-- Witness for C8: with an oracle under which every pattern matches, all ten
catalogue intents are regex hits and the result is their first `top_k`. -/
theorem predict_multi_spec_witness :
    regexHits (fun _ _ => true) "m" ≠ [] ∧
    predict_multi (fun _ _ => true) none "m" 3
      = (regexHits (fun _ _ => true) "m").take 3 := by
  refine ⟨by decide, ?_⟩
  exact (predict_multi_spec (fun _ _ => true) none "m" 3).2.2.2.1 (by decide)

end NlpEngine

namespace NlpEngine

/-- `list(dict.fromkeys(ms))`: deduplicate keeping first occurrences, in
order; `seen` is the set of keys already inserted. -/
def pyDedupGo (seen : List String) : List String → List String
  | [] => []
  | x :: xs => if x ∈ seen then pyDedupGo seen xs else x :: pyDedupGo (x :: seen) xs

def pyDedup (l : List String) : List String := pyDedupGo [] l

theorem mem_pyDedupGo (l : List String) :
    ∀ seen a, a ∈ pyDedupGo seen l ↔ (a ∈ l ∧ a ∉ seen) := by
  induction l with
  | nil => intro seen a; simp [pyDedupGo]
  | cons x xs ih =>
    intro seen a
    rw [pyDedupGo]
    by_cases hx : x ∈ seen
    · rw [if_pos hx, ih]
      constructor
      · rintro ⟨ha, hs⟩
        exact ⟨List.mem_cons_of_mem _ ha, hs⟩
      · rintro ⟨ha, hs⟩
        rcases List.mem_cons.mp ha with rfl | h
        · exact absurd hx hs
        · exact ⟨h, hs⟩
    · rw [if_neg hx]
      simp only [List.mem_cons, ih (x :: seen) a]
      constructor
      · rintro (rfl | ⟨ha, hs⟩)
        · exact ⟨Or.inl rfl, hx⟩
        · exact ⟨Or.inr ha, fun h => hs (Or.inr h)⟩
      · rintro ⟨rfl | ha, hs⟩
        · exact Or.inl rfl
        · by_cases hax : a = x
          · exact Or.inl hax
          · exact Or.inr ⟨ha, fun h => h.elim hax hs⟩

theorem pyDedupGo_nodup (l : List String) : ∀ seen, (pyDedupGo seen l).Nodup := by
  induction l with
  | nil => intro seen; simp [pyDedupGo]
  | cons x xs ih =>
    intro seen
    rw [pyDedupGo]
    by_cases hx : x ∈ seen
    · rw [if_pos hx]
      exact ih seen
    · rw [if_neg hx]
      rw [List.nodup_cons]
      refine ⟨?_, ih _⟩
      intro hmem
      exact ((mem_pyDedupGo xs _ x).mp hmem).2 (List.mem_cons_self x seen)

theorem pairwise_indexOf_lift {xs : List String} {x : String} {l : List String}
    (h : l.Pairwise (fun a b => xs.indexOf a < xs.indexOf b))
    (hne : ∀ a ∈ l, a ≠ x) :
    l.Pairwise (fun a b => (x :: xs).indexOf a < (x :: xs).indexOf b) := by
  refine h.imp_of_mem ?_
  intro a b ha hb hab
  rw [List.indexOf_cons_ne _ (Ne.symm (hne a ha)), List.indexOf_cons_ne _ (Ne.symm (hne b hb))]
  omega

theorem pyDedupGo_pairwise (l : List String) :
    ∀ seen, (pyDedupGo seen l).Pairwise (fun a b => l.indexOf a < l.indexOf b) := by
  induction l with
  | nil => intro seen; simp [pyDedupGo]
  | cons x xs ih =>
    intro seen
    rw [pyDedupGo]
    by_cases hx : x ∈ seen
    · rw [if_pos hx]
      have hne : ∀ a ∈ pyDedupGo seen xs, a ≠ x := by
        intro a ha hax
        rw [hax] at ha
        exact ((mem_pyDedupGo xs seen x).mp ha).2 hx
      exact pairwise_indexOf_lift (ih seen) hne
    · rw [if_neg hx]
      rw [List.pairwise_cons]
      constructor
      · intro b hb
        have hbm := (mem_pyDedupGo xs _ b).mp hb
        have hbx : b ≠ x := fun h => hbm.2 (by rw [h]; exact List.mem_cons_self x seen)
        rw [List.indexOf_cons_self, List.indexOf_cons_ne _ (Ne.symm hbx)]
        omega
      · have hne : ∀ a ∈ pyDedupGo (x :: seen) xs, a ≠ x := by
          intro a ha hax
          exact ((mem_pyDedupGo xs _ a).mp ha).2 (by rw [hax]; exact List.mem_cons_self x seen)
        exact pairwise_indexOf_lift (ih (x :: seen)) hne

theorem mem_pyDedup (l : List String) (a : String) : a ∈ pyDedup l ↔ a ∈ l := by
  rw [pyDedup, mem_pyDedupGo]
  simp

theorem pyDedup_nodup (l : List String) : (pyDedup l).Nodup := pyDedupGo_nodup l []

theorem pyDedup_pairwise (l : List String) :
    (pyDedup l).Pairwise (fun a b => l.indexOf a < l.indexOf b) := pyDedupGo_pairwise l []

theorem pyDedup_ne_nil {l : List String} (h : l ≠ []) : pyDedup l ≠ [] := by
  obtain ⟨a, ha⟩ := List.exists_mem_of_ne_nil l h
  intro hd
  rw [← mem_pyDedup] at ha
  rw [hd] at ha
  exact List.not_mem_nil a ha

/-- `NER_PATTERNS` of `nlp_engine.py` (pattern strings verbatim; the
semantics of `re.findall(pattern, text)` is abstracted by a `findall`
oracle returning the matched substrings in order of occurrence). -/
def NER_PATTERNS : List (String × String) :=
  [("EMAIL", "[a-zA-Z0-9_.+-]+@[a-zA-Z0-9-]+\\.[a-zA-Z0-9-.]+"),
   ("PHONE", "(?:\\+?\\d\x7b1,3\x7d[-.\\s]?)?\\(?\\d\x7b2,4\x7d\\)?[-.\\s]?\\d\x7b3,4\x7d[-.\\s]?\\d\x7b3,6\x7d"),
   ("URL", "https?://[^\\s<>\"\x27]+"),
   ("DATE", "\\b(?:(?:0?[1-9]|[12]\\d|3[01])[-/](?:0?[1-9]|1[0-2])[-/]\\d\x7b2,4\x7d|\\d\x7b4\x7d[-/](?:0?[1-9]|1[0-2])[-/](?:0?[1-9]|[12]\\d|3[01]))\\b"),
   ("TIME", "\\b\\d\x7b1,2\x7d:\\d\x7b2\x7d(?:\\s*[AaPp][Mm])?\\b"),
   ("CURRENCY", "(?:[\\$€£₹]\\s*\\d+(?:,\\d\x7b3\x7d)*(?:\\.\\d\x7b1,2\x7d)?|\\d+(?:,\\d\x7b3\x7d)*(?:\\.\\d\x7b1,2\x7d)?\\s*(?:USD|EUR|GBP|INR|dollars?|euros?|pounds?|rupees?))"),
   ("PERSON", "\\b(?:Mr|Mrs|Ms|Dr|Prof)\\.?\\s+[A-Z][a-z]+(?:\\s+[A-Z][a-z]+)\x7b0,2\x7d\\b"),
   ("CITY", "\\b(?:New\\s*York|Los\\s*Angeles|Chicago|Houston|Phoenix|San\\s*Francisco|London|Paris|Tokyo|Mumbai|Delhi|Bangalore|Bengaluru|Chennai|Kolkata|Sydney|Berlin|Dubai|Singapore)\\b")]

/-- `NERExtractor.extract` of `nlp_engine.py`: for each typed pattern in
table order, deduplicate the `findall` matches keeping first occurrences;
types with zero matches are omitted (the dict gains no key for them). -/
def extract (findall : String → String → List String) (text : String) :
    List (String × List String) :=
  NER_PATTERNS.foldl
    (fun entities lp =>
      if (findall lp.2 text).isEmpty then entities
      else entities ++ [(lp.1, pyDedup (findall lp.2 text))])
    []

theorem extract_fold_mem (findall : String → String → List String) (text : String) :
    ∀ (tbl : List (String × String)) (acc : List (String × List String)),
      ∀ e ∈ tbl.foldl
          (fun entities lp =>
            if (findall lp.2 text).isEmpty then entities
            else entities ++ [(lp.1, pyDedup (findall lp.2 text))]) acc,
        e ∈ acc ∨ ∃ pat, (e.1, pat) ∈ tbl ∧ findall pat text ≠ [] ∧
          e.2 = pyDedup (findall pat text) := by
  intro tbl
  induction tbl with
  | nil => intro acc e he; exact Or.inl he
  | cons lp rest ih =>
    intro acc e he
    rw [List.foldl_cons] at he
    by_cases hms : (findall lp.2 text).isEmpty
    · rw [if_pos hms] at he
      rcases ih _ e he with h | ⟨pat, hp, hne, heq⟩
      · exact Or.inl h
      · exact Or.inr ⟨pat, List.mem_cons_of_mem _ hp, hne, heq⟩
    · rw [if_neg hms] at he
      rcases ih _ e he with h | ⟨pat, hp, hne, heq⟩
      · rcases List.mem_append.mp h with h' | h'
        · exact Or.inl h'
        · right
          have heq : e = (lp.1, pyDedup (findall lp.2 text)) := List.mem_singleton.mp h'
          refine ⟨lp.2, ?_, ?_, ?_⟩
          · rw [heq]
            exact List.mem_cons.mpr (Or.inl Prod.mk.eta)
          · intro hnil
            rw [hnil] at hms
            exact hms rfl
          · rw [heq]
      · exact Or.inr ⟨pat, List.mem_cons_of_mem _ hp, hne, heq⟩

/-- Claim C9: every entry of `NERExtractor.extract` binds its entity type to
a non-empty list; that list is the deduplication of the matches of one of
the table patterns for that type: it holds each matched string exactly once
(no duplicates, same membership as the raw match list) in the order of first
occurrence in the match sequence (pairwise increasing first-occurrence
indices). -/
theorem extract_spec (findall : String → String → List String) (text : String) :
    ∀ e ∈ extract findall text,
      e.2 ≠ [] ∧
      ∃ pat, (e.1, pat) ∈ NER_PATTERNS ∧
        e.2.Nodup ∧
        (∀ a, a ∈ e.2 ↔ a ∈ findall pat text) ∧
        e.2.Pairwise
          (fun a b => (findall pat text).indexOf a < (findall pat text).indexOf b) := by
  intro e he
  rcases extract_fold_mem findall text NER_PATTERNS [] e he with h | ⟨pat, hp, hne, heq⟩
  · exact absurd h (List.not_mem_nil e)
  · refine ⟨by rw [heq]; exact pyDedup_ne_nil hne, pat, hp, ?_, ?_, ?_⟩
    · rw [heq]
      exact pyDedup_nodup _
    · intro a
      rw [heq]
      exact mem_pyDedup _ a
    · rw [heq]
      exact pyDedup_pairwise _

/-- Witness for C9 at a concrete input: a `findall` oracle that reports the
same email twice for the EMAIL pattern yields a single deduplicated entry. -/
theorem extract_spec_witness :
    ("EMAIL", ["a@b.com"])
        ∈ extract
            (fun pat _ =>
              if pat = "[a-zA-Z0-9_.+-]+@[a-zA-Z0-9-]+\\.[a-zA-Z0-9-.]+"
              then ["a@b.com", "a@b.com"] else []) "m" ∧
    (["a@b.com"] : List String) ≠ [] := by
  refine ⟨by decide, ?_⟩
  exact (extract_spec
    (fun pat _ =>
      if pat = "[a-zA-Z0-9_.+-]+@[a-zA-Z0-9-]+\\.[a-zA-Z0-9-.]+"
      then ["a@b.com", "a@b.com"] else []) "m" ("EMAIL", ["a@b.com"]) (by decide)).1

end NlpEngine

namespace NlpEngine

/-- One entry of the `ContextMemory.turns` deque: the dict appended by
`add_turn` (`time.time()` is passed in as `now`). -/
structure Turn where
  role : String
  text : String
  intent : Option String
  entities : List (String × List String)
  timestamp : ℚ
deriving DecidableEq

/-- The state of `ContextMemory` of `nlp_engine.py`. -/
structure ContextMemory where
  window : ℕ
  turns : List Turn
  entities_seen : List (String × List String)
  topic_history : List String
deriving DecidableEq

/-- `ContextMemory(window)` freshly constructed. -/
def ContextMemory.init (window : ℕ) : ContextMemory :=
  { window := window, turns := [], entities_seen := [], topic_history := [] }

/-- The turn record built by one `add_turn` call. -/
def mkTurn (role text : String) (intent : Option String)
    (entities : List (String × List String)) (now : ℚ) : Turn :=
  { role := role, text := text, intent := intent, entities := entities,
    timestamp := now }

/-- `deque(maxlen=maxlen).append`: append on the right, evicting from the
left whatever exceeds `maxlen`. -/
def dequeAppend (maxlen : ℕ) (l : List Turn) (t : Turn) : List Turn :=
  if maxlen < (l ++ [t]).length then (l ++ [t]).drop ((l ++ [t]).length - maxlen)
  else l ++ [t]

/-- The `setdefault(k, []).extend(v)` accumulation of `add_turn`: extend the
value of a key already present (keeping its position), append new keys at
the end. -/
def addEntities (es new : List (String × List String)) : List (String × List String) :=
  new.foldl
    (fun es kv =>
      if es.any (fun e => e.1 == kv.1)
      then es.map (fun e => if e.1 = kv.1 then (e.1, e.2 ++ kv.2) else e)
      else es ++ [kv])
    es

/-- `ContextMemory.add_turn` of `nlp_engine.py`.  In Python,
`if intent and role == "user"` treats both `None` and the empty string as
no intent, and `if entities:` skips `None` and the empty mapping (both
modelled by `[]`). -/
def ContextMemory.add_turn (m : ContextMemory) (role text : String)
    (intent : Option String) (entities : List (String × List String)) (now : ℚ) :
    ContextMemory :=
  { m with
    turns := dequeAppend m.window m.turns (mkTurn role text intent entities now),
    topic_history :=
      match intent with
      | some i =>
        if i ≠ "" ∧ role = "user" then m.topic_history ++ [i] else m.topic_history
      | none => m.topic_history,
    entities_seen :=
      if entities.isEmpty then m.entities_seen else addEntities m.entities_seen entities }

/-- Python `max(iterable, key=f)`: scanning left to right, a later element
replaces the current best only when its key is strictly greater, so the
first element attaining the maximal key wins. -/
def pyMaxBy (f : String → ℕ) (x : String) (xs : List String) : String :=
  xs.foldl (fun best y => if f best < f y then y else best) x

/-- The `max(set(self.topic_history), key=self.topic_history.count)`
expression of `get_summary`.  A CPython `set` of strings iterates in an
unspecified, hash-seed-dependent order, so the enumeration `setOrder` of
the distinct labels is an oracle parameter. -/
def dominantIntent (hist : List String) (setOrder : List String) : String :=
  if hist.isEmpty then "N/A"
  else
    match setOrder with
    | [] => "N/A"
    | x :: xs => pyMaxBy (fun lbl => hist.count lbl) x xs

/-- The Python `repr` of the list of entity-type keys, as interpolated into
the summary f-string. -/
def pyListRepr (keys : List String) : String :=
  "[" ++ String.intercalate ", " (keys.map (fun k => "\x27" ++ k ++ "\x27")) ++ "]"

/-- `ContextMemory.get_summary` of `nlp_engine.py`. -/
def ContextMemory.get_summary (m : ContextMemory) (setOrder : List String) : String :=
  toString m.turns.length ++ " turns · dominant intent: "
    ++ dominantIntent m.topic_history setOrder
    ++ " · entities seen: " ++ pyListRepr (m.entities_seen.map Prod.fst)

/-- The first-scan tie-break rule claimed by the specification (modelled
from the spec's words, for comparison with `dominantIntent`): the mode of
the trail with ties broken by the label encountered first when scanning the
trail itself. -/
def specModeFirstScan (hist : List String) : String :=
  match hist with
  | [] => "N/A"
  | x :: xs => pyMaxBy (fun lbl => (x :: xs).count lbl) x xs

theorem pyMaxBy_spec (f : String → ℕ) :
    ∀ (xs : List String) (x : String),
      pyMaxBy f x xs ∈ x :: xs ∧ ∀ y ∈ x :: xs, f y ≤ f (pyMaxBy f x xs) := by
  intro xs
  induction xs with
  | nil =>
    intro x
    refine ⟨List.mem_singleton.mpr rfl, ?_⟩
    intro y hy
    rw [List.mem_singleton.mp hy]
    exact le_refl _
  | cons z zs ih =>
    intro x
    by_cases hxz : f x < f z
    · have hstep : pyMaxBy f x (z :: zs) = pyMaxBy f z zs := by
        show List.foldl _ (if f x < f z then z else x) zs = _
        rw [if_pos hxz]
        rfl
      obtain ⟨hmem, hge⟩ := ih z
      constructor
      · rw [hstep]
        exact List.mem_cons_of_mem _ hmem
      · intro y hy
        rw [hstep]
        rcases List.mem_cons.mp hy with he | ht
        · rw [he]
          have := hge z (List.mem_cons_self _ _)
          omega
        · rcases List.mem_cons.mp ht with he' | ht'
          · rw [he']
            exact hge z (List.mem_cons_self _ _)
          · exact hge y (List.mem_cons_of_mem _ ht')
    · have hstep : pyMaxBy f x (z :: zs) = pyMaxBy f x zs := by
        show List.foldl _ (if f x < f z then z else x) zs = _
        rw [if_neg hxz]
        rfl
      obtain ⟨hmem, hge⟩ := ih x
      constructor
      · rw [hstep]
        rcases List.mem_cons.mp hmem with he | ht
        · rw [he]
          exact List.mem_cons_self _ _
        · exact List.mem_cons_of_mem _ (List.mem_cons_of_mem _ ht)
      · intro y hy
        rw [hstep]
        rcases List.mem_cons.mp hy with he | ht
        · rw [he]
          exact hge x (List.mem_cons_self _ _)
        · rcases List.mem_cons.mp ht with he' | ht'
          · rw [he']
            have := hge x (List.mem_cons_self _ _)
            omega
          · exact hge y (List.mem_cons_of_mem _ ht')

theorem pyMaxBy_unique (f : String → ℕ) (xs : List String) (x z : String)
    (hz : z ∈ x :: xs)
    (hstrict : ∀ w ∈ x :: xs, w ≠ z → f w < f z) :
    pyMaxBy f x xs = z := by
  obtain ⟨hmem, hge⟩ := pyMaxBy_spec f xs x
  by_contra hne
  have h1 : f (pyMaxBy f x xs) < f z := hstrict _ hmem hne
  have h2 : f z ≤ f (pyMaxBy f x xs) := hge z hz
  omega

theorem pyDedupGo_congr (l : List String) :
    ∀ s1 s2, (∀ a, a ∈ s1 ↔ a ∈ s2) → pyDedupGo s1 l = pyDedupGo s2 l := by
  induction l with
  | nil => intro s1 s2 _; rfl
  | cons x xs ih =>
    intro s1 s2 hiff
    rw [pyDedupGo, pyDedupGo]
    by_cases hx : x ∈ s1
    · rw [if_pos hx, if_pos ((hiff x).mp hx)]
      exact ih s1 s2 hiff
    · rw [if_neg hx, if_neg (fun h => hx ((hiff x).mpr h))]
      rw [ih (x :: s1) (x :: s2) ?_]
      intro a
      simp only [List.mem_cons]
      exact or_congr Iff.rfl (hiff a)

theorem addEntities_keys (new : List (String × List String)) :
    ∀ es, (addEntities es new).map Prod.fst
      = es.map Prod.fst ++ pyDedupGo (es.map Prod.fst) (new.map Prod.fst) := by
  induction new with
  | nil =>
    intro es
    exact (List.append_nil _).symm
  | cons kv rest ih =>
    intro es
    have hstep : addEntities es (kv :: rest)
        = addEntities
            (if es.any (fun e => e.1 == kv.1)
             then es.map (fun e => if e.1 = kv.1 then (e.1, e.2 ++ kv.2) else e)
             else es ++ [kv]) rest := rfl
    by_cases hin : kv.1 ∈ es.map Prod.fst
    · have hany : es.any (fun e => e.1 == kv.1) = true := by
        rw [List.any_eq_true]
        obtain ⟨e, he, heq⟩ := List.mem_map.mp hin
        exact ⟨e, he, by rw [heq]; exact beq_self_eq_true _⟩
      rw [hstep, if_pos hany, ih]
      have hkeys : (es.map (fun e => if e.1 = kv.1 then (e.1, e.2 ++ kv.2) else e)).map
          Prod.fst = es.map Prod.fst := by
        rw [List.map_map]
        apply List.map_congr_left
        intro e _
        by_cases h : e.1 = kv.1 <;> simp [h]
      rw [hkeys]
      have hdg : pyDedupGo (es.map Prod.fst) ((kv :: rest).map Prod.fst)
          = pyDedupGo (es.map Prod.fst) (rest.map Prod.fst) := by
        rw [List.map_cons, pyDedupGo, if_pos hin]
      rw [hdg]
    · have hany : es.any (fun e => e.1 == kv.1) = false := by
        rw [List.any_eq_false]
        intro e he
        simp only [beq_iff_eq]
        intro heq
        exact hin (List.mem_map.mpr ⟨e, he, heq⟩)
      rw [hstep, if_neg (by rw [hany]; exact Bool.false_ne_true), ih]
      simp only [List.map_append, List.map_cons, List.map_nil]
      have hdg : pyDedupGo (es.map Prod.fst) (kv.1 :: rest.map Prod.fst)
          = kv.1 :: pyDedupGo (kv.1 :: es.map Prod.fst) (rest.map Prod.fst) := by
        rw [pyDedupGo, if_neg hin]
      rw [hdg]
      have hcongr : pyDedupGo (es.map Prod.fst ++ [kv.1]) (rest.map Prod.fst)
          = pyDedupGo (kv.1 :: es.map Prod.fst) (rest.map Prod.fst) := by
        apply pyDedupGo_congr
        intro a
        simp [List.mem_append, List.mem_cons, or_comm]
      rw [hcongr, List.append_assoc]
      rfl

theorem dominantIntent_nil (hist setOrder : List String) (h : hist = []) :
    dominantIntent hist setOrder = "N/A" := by
  rw [dominantIntent.eq_def, h]
  rfl

theorem dominantIntent_cons (hist : List String) (x : String) (xs : List String)
    (hne : hist ≠ []) :
    dominantIntent hist (x :: xs) = pyMaxBy (fun lbl => hist.count lbl) x xs := by
  have hie : hist.isEmpty = false := by
    cases hh : hist with
    | nil => exact absurd hh hne
    | cons a t => rfl
  rw [dominantIntent.eq_def, hie]
  rfl

/-- Claim C6 (amended): `get_summary` reports the count of turns currently
in the window, a dominant intent, and the entity-type keys seen so far in
first-seen order.  The dominant intent is "N/A" exactly when the trail is
empty; otherwise it occurs in the trail and attains the maximal count, and
whenever the trail has a strict mode it is that mode for every admissible
set enumeration.  On ties, however, the (unspecified) iteration order of
the Python set decides, not the scan order of the trail.  The last conjunct
is the first-seen-order law for entity keys: one `add_turn` extends the key
list by exactly the previously-unseen incoming keys, in first-occurrence
order. -/
theorem get_summary_spec (m : ContextMemory) (setOrder : List String)
    (_hnd : setOrder.Nodup)
    (hmem : ∀ a, a ∈ setOrder ↔ a ∈ m.topic_history) :
    m.get_summary setOrder
      = toString m.turns.length ++ " turns · dominant intent: "
        ++ dominantIntent m.topic_history setOrder
        ++ " · entities seen: " ++ pyListRepr (m.entities_seen.map Prod.fst) ∧
    (m.topic_history = [] → dominantIntent m.topic_history setOrder = "N/A") ∧
    (m.topic_history ≠ [] →
      dominantIntent m.topic_history setOrder ∈ m.topic_history ∧
      ∀ lbl ∈ m.topic_history,
        m.topic_history.count lbl
          ≤ m.topic_history.count (dominantIntent m.topic_history setOrder)) ∧
    (∀ lbl ∈ m.topic_history,
      (∀ other ∈ m.topic_history, other ≠ lbl →
        m.topic_history.count other < m.topic_history.count lbl) →
      dominantIntent m.topic_history setOrder = lbl) ∧
    (∀ role text intent ents now,
      ((m.add_turn role text intent ents now).entities_seen.map Prod.fst)
        = m.entities_seen.map Prod.fst
          ++ pyDedupGo (m.entities_seen.map Prod.fst) (ents.map Prod.fst)) := by
  have hnonempty : m.topic_history ≠ [] → ∃ x xs, setOrder = x :: xs := by
    intro hne
    obtain ⟨a, ha⟩ := List.exists_mem_of_ne_nil _ hne
    have : a ∈ setOrder := (hmem a).mpr ha
    cases hso : setOrder with
    | nil => rw [hso] at this; exact absurd this (List.not_mem_nil a)
    | cons x xs => exact ⟨x, xs, rfl⟩
  refine ⟨rfl, ?_, ?_, ?_, ?_⟩
  · intro he
    exact dominantIntent_nil _ _ he
  · intro hne
    obtain ⟨x, xs, hso⟩ := hnonempty hne
    rw [hso, dominantIntent_cons _ _ _ hne]
    obtain ⟨hmm, hge⟩ := pyMaxBy_spec (fun lbl => m.topic_history.count lbl) xs x
    constructor
    · exact (hmem _).mp (by rw [hso]; exact hmm)
    · intro lbl hlbl
      exact hge lbl (by rw [← hso]; exact (hmem lbl).mpr hlbl)
  · intro lbl hlbl hstrict
    have hne : m.topic_history ≠ [] := by
      intro he
      rw [he] at hlbl
      exact List.not_mem_nil lbl hlbl
    obtain ⟨x, xs, hso⟩ := hnonempty hne
    rw [hso, dominantIntent_cons _ _ _ hne]
    apply pyMaxBy_unique
    · rw [← hso]
      exact (hmem lbl).mpr hlbl
    · intro w hw hwne
      exact hstrict w ((hmem w).mp (by rw [hso]; exact hw)) hwne
  · intro role text intent ents now
    show (if ents.isEmpty then m.entities_seen else addEntities m.entities_seen ents).map
        Prod.fst = _
    by_cases hie : ents.isEmpty
    · rw [if_pos hie]
      have : ents = [] := by
        cases hh : ents with
        | nil => rfl
        | cons a t => rw [hh] at hie; exact absurd hie (by simp)
      rw [this]
      show m.entities_seen.map Prod.fst
          = m.entities_seen.map Prod.fst ++ pyDedupGo (m.entities_seen.map Prod.fst) []
      rw [pyDedupGo, List.append_nil]
    · rw [if_neg hie]
      exact addEntities_keys ents m.entities_seen

/-- Witness for C6 (amended) at a concrete memory: trail
["greeting", "greeting", "thanks"] has the strict mode "greeting", and for
the set enumeration ["thanks", "greeting"] the summary reports it. -/
theorem get_summary_spec_witness :
    (["thanks", "greeting"] : List String).Nodup ∧
    dominantIntent ["greeting", "greeting", "thanks"] ["thanks", "greeting"]
      = "greeting" ∧
    ({ window := 20, turns := [], entities_seen := [],
       topic_history := ["greeting", "greeting", "thanks"] :
        ContextMemory }).get_summary ["thanks", "greeting"]
      = "0 turns · dominant intent: greeting · entities seen: []" := by
  have hmem : ∀ a, a ∈ (["thanks", "greeting"] : List String)
      ↔ a ∈ (["greeting", "greeting", "thanks"] : List String) := by
    intro a
    simp only [List.mem_cons, List.not_mem_nil, or_false]
    tauto
  have h := get_summary_spec
    { window := 20, turns := [], entities_seen := [],
      topic_history := ["greeting", "greeting", "thanks"] }
    ["thanks", "greeting"] (by decide) hmem
  have hdom : dominantIntent ["greeting", "greeting", "thanks"] ["thanks", "greeting"]
      = "greeting" := by
    apply (h.2.2.2.1) "greeting" (by decide)
    decide
  refine ⟨by decide, hdom, ?_⟩
  rw [h.1, hdom]
  rfl

/-- Counterexample to claim C6 as stated: for the tied trail
["greeting", "thanks"], the enumeration ["thanks", "greeting"] is a valid
iteration order of the label set (no duplicates, same members), yet
`get_summary`'s dominant intent is then "thanks", while the mode with the
claimed first-scan tie-break is "greeting".  The tie-break is decided by
the set's unspecified iteration order, not by the scan order of the
trail. -/
theorem get_summary_tie_counterexample :
    ((["thanks", "greeting"] : List String).Nodup ∧
      (∀ a, a ∈ (["thanks", "greeting"] : List String)
        ↔ a ∈ (["greeting", "thanks"] : List String))) ∧
    specModeFirstScan ["greeting", "thanks"] = "greeting" ∧
    dominantIntent ["greeting", "thanks"] ["thanks", "greeting"] = "thanks" ∧
    dominantIntent ["greeting", "thanks"] ["thanks", "greeting"]
      ≠ specModeFirstScan ["greeting", "thanks"] := by
  refine ⟨⟨by decide, ?_⟩, by decide, by decide, by decide⟩
  intro a
  simp only [List.mem_cons, List.not_mem_nil, or_false]
  tauto

/-- `add_turn` leaves at most `maxlen` turns in the deque, unconditionally. -/
theorem dequeAppend_length_le (maxlen : ℕ) (l : List Turn) (t : Turn) :
    (dequeAppend maxlen l t).length ≤ maxlen ∨ (dequeAppend maxlen l t) = l ++ [t] := by
  rw [dequeAppend]
  by_cases h : maxlen < (l ++ [t]).length
  · left
    rw [if_pos h, List.length_drop]
    omega
  · right
    rw [if_neg h]

/-- The last `n` elements of a turn list. -/
def lastN (n : ℕ) (l : List Turn) : List Turn := l.drop (l.length - n)

theorem dequeAppend_eq_lastN (maxlen : ℕ) (l : List Turn) (t : Turn) :
    dequeAppend maxlen l t = lastN maxlen (l ++ [t]) := by
  rw [dequeAppend, lastN]
  by_cases h : maxlen < (l ++ [t]).length
  · rw [if_pos h]
  · rw [if_neg h]
    have : (l ++ [t]).length - maxlen = 0 := by omega
    rw [this, List.drop_zero]

theorem lastN_append_single (W : ℕ) (A : List Turn) (t : Turn) :
    lastN W (lastN W A ++ [t]) = lastN W (A ++ [t]) := by
  rw [lastN, lastN, lastN]
  rw [← List.drop_append_of_le_length (show A.length - W ≤ A.length by omega)]
  rw [List.drop_drop]
  congr 1
  simp only [List.length_append, List.length_drop, List.length_cons, List.length_nil]
  omega

/-- The per-call record of one `add_turn` invocation. -/
structure TurnInput where
  role : String
  text : String
  intent : Option String
  entities : List (String × List String)
  now : ℚ
deriving DecidableEq

def mkTurnOf (i : TurnInput) : Turn := mkTurn i.role i.text i.intent i.entities i.now

/-- A sequence of `add_turn` calls. -/
def addTurns (m : ContextMemory) (items : List TurnInput) : ContextMemory :=
  items.foldl (fun m i => m.add_turn i.role i.text i.intent i.entities i.now) m

theorem addTurns_turns (items : List TurnInput) :
    ∀ (m : ContextMemory) (A : List Turn), m.turns = lastN m.window A →
      (addTurns m items).window = m.window ∧
      (addTurns m items).turns = lastN m.window (A ++ items.map mkTurnOf) := by
  induction items with
  | nil =>
    intro m A h
    refine ⟨rfl, ?_⟩
    simp only [addTurns, List.foldl_nil, List.map_nil, List.append_nil]
    exact h
  | cons i rest ih =>
    intro m A h
    have hstep : addTurns m (i :: rest)
        = addTurns (m.add_turn i.role i.text i.intent i.entities i.now) rest := rfl
    have hw : (m.add_turn i.role i.text i.intent i.entities i.now).window = m.window := rfl
    have ht : (m.add_turn i.role i.text i.intent i.entities i.now).turns
        = lastN m.window (A ++ [mkTurnOf i]) := by
      show dequeAppend m.window m.turns (mkTurnOf i) = _
      rw [h, dequeAppend_eq_lastN, lastN_append_single]
    obtain ⟨hw', ht'⟩ := ih (m.add_turn i.role i.text i.intent i.entities i.now)
      (A ++ [mkTurnOf i]) (by rw [hw]; exact ht)
    rw [hstep]
    refine ⟨by rw [hw', hw], ?_⟩
    rw [ht', hw, List.append_assoc]
    rfl

/-- Claim C7: for a `ContextMemory` with window W, one `add_turn` always
leaves at most W turns in the queue (so the queue never exceeds W), and
eviction is strict FIFO: starting from a fresh memory, after W + 1
insertions the queue holds exactly the turns of insertions 2 .. W+1 in
order — the second-inserted turn is the oldest one present, and the
first-inserted turn is gone (present only if an equal turn was re-inserted
later). -/
theorem context_memory_window (W : ℕ) :
    (∀ (m : ContextMemory) (role text : String) (intent : Option String)
        (ents : List (String × List String)) (now : ℚ),
      (m.add_turn role text intent ents now).turns.length ≤ m.window) ∧
    (∀ (items : List TurnInput) (i0 i1 : TurnInput) (rest : List TurnInput),
      items.length = W + 1 → items = i0 :: i1 :: rest →
      (addTurns (ContextMemory.init W) items).turns
          = mkTurnOf i1 :: rest.map mkTurnOf ∧
      (mkTurnOf i0 ∉ mkTurnOf i1 :: rest.map mkTurnOf →
        mkTurnOf i0 ∉ (addTurns (ContextMemory.init W) items).turns)) := by
  constructor
  · intro m role text intent ents now
    show (dequeAppend m.window m.turns (mkTurn role text intent ents now)).length ≤ m.window
    rw [dequeAppend]
    by_cases h : m.window < (m.turns ++ [mkTurn role text intent ents now]).length
    · rw [if_pos h, List.length_drop]
      omega
    · rw [if_neg h]
      omega
  · intro items i0 i1 rest hlen hitems
    subst hitems
    have hinit : (ContextMemory.init W).turns = lastN (ContextMemory.init W).window [] := by
      rw [lastN]
      simp [ContextMemory.init]
    obtain ⟨_, ht⟩ := addTurns_turns (i0 :: i1 :: rest) (ContextMemory.init W) [] hinit
    have hwin : (ContextMemory.init W).window = W := rfl
    have hmaplen : ((i0 :: i1 :: rest).map mkTurnOf).length = W + 1 := by
      rw [List.length_map, hlen]
    have hlast : lastN W ((i0 :: i1 :: rest).map mkTurnOf)
        = ((i0 :: i1 :: rest).map mkTurnOf).drop 1 := by
      rw [lastN, hmaplen]
      congr 1
      omega
    have hturns : (addTurns (ContextMemory.init W) (i0 :: i1 :: rest)).turns
        = mkTurnOf i1 :: rest.map mkTurnOf := by
      rw [ht, hwin, List.nil_append, hlast]
      simp only [List.map_cons, List.drop_succ_cons, List.drop_zero]
    exact ⟨hturns, fun hnot => by rw [hturns]; exact hnot⟩

/-- Witness for C7 with W = 2: after three insertions into a fresh window-2
memory, the queue holds exactly the second and third turns. -/
theorem context_memory_window_witness :
    (addTurns (ContextMemory.init 2)
        [⟨"user", "a", some "greeting", [], 0⟩,
         ⟨"model", "b", none, [], 1⟩,
         ⟨"user", "c", some "thanks", [], 2⟩]).turns
      = [mkTurnOf ⟨"model", "b", none, [], 1⟩, mkTurnOf ⟨"user", "c", some "thanks", [], 2⟩] ∧
    (((ContextMemory.init 2).add_turn "user" "x" none [] 0).turns.length ≤ 2) := by
  constructor
  · exact ((context_memory_window 2).2
      [⟨"user", "a", some "greeting", [], 0⟩, ⟨"model", "b", none, [], 1⟩,
        ⟨"user", "c", some "thanks", [], 2⟩]
      ⟨"user", "a", some "greeting", [], 0⟩ ⟨"model", "b", none, [], 1⟩
      [⟨"user", "c", some "thanks", [], 2⟩] rfl rfl).1
  · exact (context_memory_window 2).1 (ContextMemory.init 2) "user" "x" none [] 0

end NlpEngine

namespace ChatbotCore

open SentimentEngine NlpEngine GeminiClient

/-- The `ChatResponse` dataclass of `chatbot_core.py` (the response
envelope handed to the UI). -/
structure ChatResponse where
  text : String
  intent : String
  intent_conf : ℚ
  multi_intents : List (String × ℚ)
  entities : List (String × List String)
  sentiment : SentimentResult
  source : String
  response_time_ms : ℚ
  context_summary : String
deriving DecidableEq

/-- The oracle parameters of one `process_message` turn: the regex and
statistical stages of the intent recogniser, the NER matcher, the two
sentiment pipelines, the lazily constructed Gemini client (`clientInit` is
the outcome of `_get_gemini()` — `.error` when construction raised, e.g. on
a missing API key), the backend call outcomes, the set iteration order used
by `get_summary`, the two `time.time()` stamps and the turn's elapsed
wall-clock milliseconds. -/
structure Oracles where
  rex : String → String → Bool
  stat : Option (Fin _corpus_labels.length × ℚ)
  ranked : Option (List (Fin _corpus_labels.length × ℚ))
  findall : String → String → List String
  sentimentPipe : String → PipeOutput
  emotionPipe : String → PipeOutput
  clientInit : Except String Unit
  backend : ℕ → Option String
  setOrder : List String
  ts1 : ℚ
  ts2 : ℚ
  elapsed : ℚ

/-- The local `mapping` of `_emergency_fallback`. -/
def emergencyMapping : List (String × String) :=
  [("greeting", "Hey! 👋 I\x27m DynamiChat. How can I help?"),
   ("farewell", "Goodbye! 👋 See you next time!"),
   ("thanks", "You\x27re welcome! 😊"),
   ("help", "I can answer questions, detect sentiment, extract entities and more. Try asking me something!"),
   ("joke", "Why did the scarecrow win an award? He was outstanding in his field! 🌾😄")]

/-- `_emergency_fallback` of `chatbot_core.py`. -/
def _emergency_fallback (intent : String) (sentiment : SentimentResult) : String :=
  (if sentiment.polarity = "negative"
   then "I hear you – sorry you\x27re going through that. " else "")
  ++ ((emergencyMapping.lookup intent).getD
      "I\x27m here to help! Could you rephrase that for me? 😊")

/-- `ChatbotCore.process_message` of `chatbot_core.py`: the per-turn
pipeline.  Returns the memory after both turn insertions together with the
response envelope.  The FAQ check is disabled in the source; the analytics
call is a fire-and-forget sink with no bearing on the envelope. -/
def process_message (o : Oracles) (m : ContextMemory) (user_text : String) :
    ContextMemory × ChatResponse :=
  let intentPair := NlpEngine.predict o.rex o.stat user_text
  let multi := NlpEngine.predict_multi o.rex o.ranked user_text 3
  let entities := NlpEngine.extract o.findall user_text
  let sentiment := SentimentEngine.analyse o.sentimentPipe o.emotionPipe user_text
  let m1 := m.add_turn "user" user_text (some intentPair.1) entities o.ts1
  let ctx := m1.get_summary o.setOrder
  let botPair :=
    match o.clientInit with
    | Except.ok _ =>
      ((GeminiClient.respond o.backend intentPair.1 (some sentiment)).2, "gemini")
    | Except.error _ => (_emergency_fallback intentPair.1 sentiment, "fallback")
  let m2 := m1.add_turn "model" botPair.1 none [] o.ts2
  (m2,
   { text := botPair.1, intent := intentPair.1, intent_conf := intentPair.2,
     multi_intents := multi, entities := entities, sentiment := sentiment,
     source := botPair.2, response_time_ms := round1 o.elapsed,
     context_summary := ctx })

/-- Claim C3: `process_message` always produces a complete response envelope
whose fields are the outputs of the pipeline stages, and never propagates a
backend error: an exception while constructing the client or requesting the
generative response (`clientInit = .error`) is caught, the reply text is
replaced by the deterministic emergency fallback, and the source tag becomes
"fallback"; otherwise the gateway reply (itself fallback-protected by the
retry loop) is used with source tag "gemini". -/
theorem process_message_envelope (o : Oracles) (m : ContextMemory) (user_text : String) :
    (process_message o m user_text).2.intent
        = (NlpEngine.predict o.rex o.stat user_text).1 ∧
    (process_message o m user_text).2.intent_conf
        = (NlpEngine.predict o.rex o.stat user_text).2 ∧
    (process_message o m user_text).2.multi_intents
        = NlpEngine.predict_multi o.rex o.ranked user_text 3 ∧
    (process_message o m user_text).2.entities
        = NlpEngine.extract o.findall user_text ∧
    (process_message o m user_text).2.sentiment
        = SentimentEngine.analyse o.sentimentPipe o.emotionPipe user_text ∧
    (process_message o m user_text).2.response_time_ms = round1 o.elapsed ∧
    ((process_message o m user_text).2.source = "gemini" ∨
      (process_message o m user_text).2.source = "fallback") ∧
    (∀ e, o.clientInit = Except.error e →
      (process_message o m user_text).2.text
          = _emergency_fallback (NlpEngine.predict o.rex o.stat user_text).1
              (SentimentEngine.analyse o.sentimentPipe o.emotionPipe user_text) ∧
      (process_message o m user_text).2.source = "fallback") ∧
    (o.clientInit = Except.ok () →
      (process_message o m user_text).2.text
          = (GeminiClient.respond o.backend (NlpEngine.predict o.rex o.stat user_text).1
              (some (SentimentEngine.analyse o.sentimentPipe o.emotionPipe user_text))).2 ∧
      (process_message o m user_text).2.source = "gemini") := by
  refine ⟨rfl, rfl, rfl, rfl, rfl, rfl, ?_, ?_, ?_⟩
  · cases hci : o.clientInit with
    | ok u =>
      left
      simp only [process_message, hci]
    | error e =>
      right
      simp only [process_message, hci]
  · intro e hci
    constructor
    · simp only [process_message, hci]
    · simp only [process_message, hci]
  · intro hci
    constructor
    · simp only [process_message, hci]
    · simp only [process_message, hci]

/-- A concrete oracle choice for the C3 witness: the Gemini client fails to
construct (missing API key); every classifier stage is inert. -/
def failingOracles : Oracles :=
  { rex := fun _ _ => false, stat := none, ranked := none,
    findall := fun _ _ => [],
    sentimentPipe := fun _ => ⟨"neutral", mkRat 1 2⟩,
    emotionPipe := fun _ => ⟨"neutral", mkRat 1 2⟩,
    clientInit := Except.error "GEMINI_API_KEY is not set",
    backend := fun _ => none, setOrder := [], ts1 := 0, ts2 := 0, elapsed := 0 }

/-- Witness for C3: with client construction failing, the envelope is still
produced, its source tag is "fallback" and its text is the emergency
fallback. -/
theorem process_message_envelope_witness :
    (process_message failingOracles (ContextMemory.init 20) "hello").2.source
      = "fallback" ∧
    (process_message failingOracles (ContextMemory.init 20) "hello").2.text
      = _emergency_fallback
          (NlpEngine.predict failingOracles.rex failingOracles.stat "hello").1
          (SentimentEngine.analyse failingOracles.sentimentPipe
            failingOracles.emotionPipe "hello") := by
  have h := (process_message_envelope failingOracles (ContextMemory.init 20)
    "hello").2.2.2.2.2.2.2.1 "GEMINI_API_KEY is not set" rfl
  exact ⟨h.2, h.1⟩

end ChatbotCore
